import Mathlib

/-!
Verification of the SENTINEL hybrid extraction pipeline core.

This file gives a shallow embedding of the segmentation engine
(backend/app/engine/segmenter.py, fallback_extractor.py) and of the
secret scanner (backend/app/services/secret_scanner.py), and proves or
refutes the specified properties against that embedding.

Conventions of the embedding:
* Python strings are modelled as lists of characters (List Char); text is
  split into lines exactly as str.split('\n') does.
* Python floats are modelled as exact fractions.  Every constant and
  every arithmetic operation appearing in the source produces fractions
  with positive denominators, so ordering is decided by
  cross-multiplication; no normalisation (gcd) is needed, which keeps
  every operation kernel-computable.
* Python sets of line numbers are modelled as lists of naturals: the
  source only ever tests membership of such sets.
* A method call on an attribute that does not exist raises
  AttributeError in Python; the embedding of Segmenter.segment returns
  an Except.error carrying the missing attribute name at exactly the
  program points where the source performs such a call.
* Loops with non-unit index jumps are modelled with an explicit fuel
  argument so that every definition is structurally recursive and
  kernel-computable; the fuel supplied at every call site exceeds the
  number of iterations the Python loop can make, so the embedding
  computes the same result.
-/

/-! ## Exact fraction arithmetic standing in for Python floats -/

/-- Exact fraction: numerator over denominator.  All fractions built by
the embedding have positive denominators; comparisons are done by
cross-multiplication, so values are never normalised. -/
structure Q where
  num : Int
  den : Int
  deriving DecidableEq, Repr

/-- Fraction strictly-less test (valid when both denominators are positive). -/
def Q.blt (a b : Q) : Bool := a.num * b.den < b.num * a.den

/-- Fraction less-or-equal test (valid when both denominators are positive). -/
def Q.ble (a b : Q) : Bool := a.num * b.den ≤ b.num * a.den

/-- Fraction addition. -/
def Q.add (a b : Q) : Q := ⟨a.num * b.den + b.num * a.den, a.den * b.den⟩

/-- Fraction multiplication. -/
def Q.mul (a b : Q) : Q := ⟨a.num * b.num, a.den * b.den⟩

/-- Fraction division (used only with positive divisors in the source). -/
def Q.div (a b : Q) : Q := ⟨a.num * b.den, a.den * b.num⟩

/-- Embedding of Python's min on two floats (min returns its first
argument on ties, as Python does). -/
def Q.qmin (a b : Q) : Q := if Q.ble a b then a else b

/-- Fraction of a natural number. -/
def Q.ofN (n : Nat) : Q := ⟨n, 1⟩

/-- The ordering relation on fractions as a proposition,
given by cross-multiplication. -/
def Q.leP (a b : Q) : Prop := a.num * b.den ≤ b.num * a.den

/-- Strict ordering on fractions as a proposition. -/
def Q.ltP (a b : Q) : Prop := a.num * b.den < b.num * a.den

/-- A fraction is well-formed when its denominator is positive. -/
def Q.Pos (a : Q) : Prop := 0 < a.den

theorem Q.leP_refl (a : Q) : Q.leP a a := le_refl _

theorem Q.ltP_irrefl (a : Q) : ¬ Q.ltP a a := lt_irrefl _

theorem Q.leP_total (a b : Q) : Q.leP a b ∨ Q.leP b a := by
  unfold Q.leP; omega

theorem Q.ble_iff (a b : Q) : Q.ble a b = true ↔ Q.leP a b := by
  unfold Q.ble Q.leP; exact decide_eq_true_iff

theorem Q.blt_iff (a b : Q) : Q.blt a b = true ↔ Q.ltP a b := by
  unfold Q.blt Q.ltP; exact decide_eq_true_iff

theorem Q.leP_trans {a b c : Q} (ha : Q.Pos a) (hb : Q.Pos b) (hc : Q.Pos c)
    (h1 : Q.leP a b) (h2 : Q.leP b c) : Q.leP a c := by
  unfold Q.leP Q.Pos at *
  have e1 := mul_le_mul_of_nonneg_right h1 (le_of_lt hc)
  have e2 := mul_le_mul_of_nonneg_right h2 (le_of_lt ha)
  have : a.num * c.den * b.den ≤ c.num * a.den * b.den := by nlinarith
  exact le_of_mul_le_mul_right this hb

theorem Q.leP_ltP_trans {a b c : Q} (ha : Q.Pos a) (hb : Q.Pos b) (hc : Q.Pos c)
    (h1 : Q.leP a b) (h2 : Q.ltP b c) : Q.ltP a c := by
  unfold Q.leP Q.ltP Q.Pos at *
  have e1 := mul_le_mul_of_nonneg_right h1 (le_of_lt hc)
  have e2 := mul_lt_mul_of_pos_right h2 ha
  have : a.num * c.den * b.den < c.num * a.den * b.den := by nlinarith
  exact lt_of_mul_lt_mul_right this (le_of_lt hb)

theorem Q.qmin_leP_left (a b : Q) : Q.leP (Q.qmin a b) a := by
  unfold Q.qmin
  by_cases h : Q.ble a b = true
  · simp [h, Q.leP_refl]
  · simp [h]
    rcases Q.leP_total a b with h1 | h1
    · exact absurd ((Q.ble_iff a b).mpr h1) h
    · exact h1

theorem Q.qmin_pos {a b : Q} (ha : Q.Pos a) (hb : Q.Pos b) :
    Q.Pos (Q.qmin a b) := by
  unfold Q.qmin
  by_cases h : Q.ble a b = true <;> simp [h, ha, hb]

/-! ## Characters, lines and words -/

/-- Shorthand turning a Lean string literal into the character-list model
of a Python string. -/
def lc (s : String) : List Char := s.toList

/-- Python whitespace as recognised by str.strip and str.split. -/
def isPySpace (c : Char) : Bool :=
  c = ' ' || c = '\t' || c = '\n' || c = '\r' || c = '\x0b' || c = '\x0c'

/-- Embedding of text.split('\n'): split on every newline, keeping empty
pieces; the empty text yields one empty line. -/
def splitLines : List Char → List (List Char)
  | [] => [[]]
  | c :: cs =>
    let r := splitLines cs
    if c = '\n' then [] :: r else (c :: r.headD []) :: r.tail

/-- Embedding of '\n'.join(lines). -/
def joinLines : List (List Char) → List Char
  | [] => []
  | [l] => l
  | l :: ls => l ++ '\n' :: joinLines ls

/-- Embedding of str.strip(). -/
def pyStrip (l : List Char) : List Char :=
  ((l.dropWhile isPySpace).reverse.dropWhile isPySpace).reverse

/-- Worker for str.split() with fuel (the fuel argument, always at least
the length of the list, only makes the recursion structural). -/
def splitWordsF : Nat → List Char → List (List Char)
  | 0, _ => []
  | _ + 1, [] => []
  | fuel + 1, c :: cs =>
    if isPySpace c then splitWordsF fuel cs
    else (c :: cs.takeWhile (fun d => !isPySpace d)) ::
      splitWordsF fuel (cs.dropWhile (fun d => !isPySpace d))

/-- Embedding of str.split(): maximal runs of non-whitespace characters. -/
def splitWords (l : List Char) : List (List Char) := splitWordsF l.length l

/-- ASCII word character, as matched by the regex class backslash-w on
the ASCII inputs handled here. -/
def isWordChar (c : Char) : Bool := c.isAlpha || c.isDigit || c = '_'

/-- Maximal runs of word characters of a text, with fuel as in
splitWordsF. -/
def wordRunsF : Nat → List Char → List (List Char)
  | 0, _ => []
  | _ + 1, [] => []
  | fuel + 1, c :: cs =>
    if isWordChar c then (c :: cs.takeWhile isWordChar) ::
      wordRunsF fuel (cs.dropWhile isWordChar)
    else wordRunsF fuel cs

/-- Maximal runs of word characters of a text. -/
def wordRuns (l : List Char) : List (List Char) := wordRunsF l.length l

/-- Lower-casing of a word, as str.lower() on ASCII text. -/
def lowerW (w : List Char) : List Char := w.map Char.toLower

/-- Embedding of Python's range(s, e + 1): the line numbers from s to e
inclusive (empty when e < s). -/
def rangeList (s e : Nat) : List Nat := List.range' s (e + 1 - s)

/-! ## The candidate block data model (segmenter.py, class CandidateBlock) -/

/-- Embedding of the CandidateBlock dataclass of segmenter.py. -/
structure CandidateBlock where
  content : List Char
  start_line : Nat
  end_line : Nat
  detection_method : String
  confidence : Q
  language_hint : Option (List Char) := none
  deriving DecidableEq, Repr

/-- The set of source lines covered by a block, as the list
range(start_line, end_line + 1). -/
def CandidateBlock.lineList (b : CandidateBlock) : List Nat :=
  rangeList b.start_line b.end_line

/-- Two blocks overlap when some source line is covered by both. -/
def BlocksOverlap (a b : CandidateBlock) : Prop :=
  ∃ n, n ∈ a.lineList ∧ n ∈ b.lineList

/-- Two blocks have disjoint line ranges. -/
def LinesDisjoint (a b : CandidateBlock) : Prop :=
  ∀ n, n ∈ a.lineList → n ∉ b.lineList

theorem LinesDisjoint.symm {a b : CandidateBlock} (h : LinesDisjoint a b) :
    LinesDisjoint b a := fun n hb ha => h n ha hb

theorem not_overlap_iff (a b : CandidateBlock) :
    ¬ BlocksOverlap a b ↔ LinesDisjoint a b := by
  constructor
  · intro h n ha hb; exact h ⟨n, ha, hb⟩
  · rintro h ⟨n, ha, hb⟩; exact h n ha hb

/-! ## FallbackExtractor (fallback_extractor.py) -/

/-- Embedding of the dict records returned by FallbackExtractor.extract. -/
structure FallbackBlock where
  content : List Char
  start_line : Nat
  end_line : Nat
  confidence : Q
  extraction_method : String
  language : String
  deriving DecidableEq, Repr

namespace FallbackExtractor

/-- Loop of FallbackExtractor.extract: walk the lines, accumulating the
current run of non-blank lines, and emit a block at every blank line that
ends a run; a final run is emitted after the loop.  The counter i is the
index of the line at the head of the remaining list. -/
def extractGo (i : Nat) (cur : List (List Char)) :
    List (List Char) → List FallbackBlock
  | [] =>
    if cur.isEmpty then []
    else [⟨joinLines cur, i - cur.length + 1, i, ⟨6, 10⟩, "fallback_regex", "unknown"⟩]
  | l :: rest =>
    if pyStrip l ≠ [] then extractGo (i + 1) (cur ++ [l]) rest
    else if cur.isEmpty then extractGo (i + 1) [] rest
    else ⟨joinLines cur, i - cur.length + 1, i, ⟨6, 10⟩, "fallback_regex", "unknown"⟩ ::
      extractGo (i + 1) [] rest

/-- Embedding of FallbackExtractor.extract(content, filename): split on
blank lines; every block carries confidence 0.6 and method
fallback_regex.  The filename argument is unused by the source. -/
def extract (content : List Char) (_filename : List Char) : List FallbackBlock :=
  extractGo 0 [] (splitLines content)

end FallbackExtractor

/-! ## Segmenter: constants and scoring (segmenter.py) -/

namespace Segmenter

/-- TECHNICAL_CHARS of the Segmenter class. -/
def technicalChars : List Char := lc "\x7b\x7d[]()<>;:=+-*/%&|!~^#@$"

/-- KEYWORDS of the Segmenter class. -/
def keywords : List (List Char) :=
  [lc "def", lc "class", lc "function", lc "var", lc "let", lc "const",
   lc "import", lc "export", lc "if", lc "else", lc "for", lc "while",
   lc "return", lc "void", lc "int", lc "string", lc "public", lc "private",
   lc "static", lc "async", lc "await", lc "try", lc "catch"]

/-- Embedding of _calculate_technical_density: the ratio of technical
characters weighted 0.7 plus the ratio of keyword words weighted 0.3. -/
def calculateTechnicalDensity (t : List Char) : Q :=
  if pyStrip t = [] then ⟨0, 1⟩
  else
    let techCount := (t.filter (fun c => technicalChars.contains c)).length
    let words := splitWords t
    let keywordCount := (words.filter (fun w => keywords.contains (lowerW w))).length
    Q.add (Q.mul (Q.div (Q.ofN techCount) (Q.ofN (max t.length 1))) ⟨7, 10⟩)
          (Q.mul (Q.div (Q.ofN keywordCount) (Q.ofN (max words.length 1))) ⟨3, 10⟩)

theorem calculateTechnicalDensity_pos (t : List Char) :
    Q.Pos (calculateTechnicalDensity t) := by
  unfold calculateTechnicalDensity Q.Pos Q.add Q.mul Q.div Q.ofN
  split
  · norm_num
  · have h1 : (0 : Int) < (max t.length 1 : Nat) := by
      have := Nat.le_max_right t.length 1; omega
    have h2 : (0 : Int) < (max (splitWords t).length 1 : Nat) := by
      have := Nat.le_max_right (splitWords t).length 1; omega
    simp only []
    positivity

/-- The six keywords counted by _calculate_block_complexity. -/
def complexityKeywords : List (List Char) :=
  [lc "def", lc "class", lc "if", lc "for", lc "while", lc "return"]

/-- Embedding of _calculate_block_complexity.  The findall count of the
word-boundary-delimited alternation (def|class|if|for|while|return) equals
the number of maximal word-character runs equal to one of those keywords;
one more point when the text has both an opening and a closing brace. -/
def calculateBlockComplexity (t : List Char) : Nat :=
  ((wordRuns t).filter (fun w => complexityKeywords.contains w)).length +
    (if t.contains '\x7b' && t.contains '\x7d' then 1 else 0)

/-- Matcher for SECTION_PATTERN (case-insensitive
"^[#/\*]+\s*-+\s*SECTION:\s*([A-Z_]+)\s*-+.*$"), returning the captured
section name lower-cased as group(1).lower() does.  The sequential greedy
scan is exact because every two consecutive pieces of the pattern use
disjoint character classes, so the regex engine never backtracks into an
earlier piece on a successful match. -/
def sectionMatch (l : List Char) : Option (List Char) :=
  match l with
  | [] => none
  | c :: _ =>
    if c = '#' || c = '/' || c = '*' then
      let r1 := l.dropWhile (fun d => d = '#' || d = '/' || d = '*')
      let r2 := r1.dropWhile isPySpace
      match r2 with
      | '-' :: _ =>
        let r3 := r2.dropWhile (· = '-')
        let r4 := r3.dropWhile isPySpace
        if lowerW (r4.take 8) = lc "section:" then
          let r6 := (r4.drop 8).dropWhile isPySpace
          let grp := r6.takeWhile (fun d => d.isAlpha || d = '_')
          if grp = [] then none
          else
            let r7 := r6.dropWhile (fun d => d.isAlpha || d = '_')
            match r7.dropWhile isPySpace with
            | '-' :: _ => some (lowerW grp)
            | _ => none
        else none
      | _ => none
    else none

/-! ## Strategy 1: custom delimiters (_extract_delimited_blocks) -/

/-- Loop of _extract_delimited_blocks.  The state cur holds the index and
section name of the last seen section-marker line; on each further marker
the span since the previous marker is emitted (when its stripped content
is non-empty), and after the loop the trailing span is emitted the same
way with end line len(lines) - 1. -/
def extractDelimitedGo (lines : List (List Char)) (i : Nat)
    (cur : Option (Nat × List Char)) : List (List Char) → List CandidateBlock
  | [] =>
    match cur with
    | none => []
    | some (cs, lg) =>
      let content := pyStrip (joinLines (lines.drop (cs + 1)))
      if content = [] then []
      else [⟨content, cs + 1, lines.length - 1, "delimiter", ⟨99, 100⟩, some lg⟩]
  | l :: rest =>
    match sectionMatch (pyStrip l) with
    | none => extractDelimitedGo lines (i + 1) cur rest
    | some lang =>
      match cur with
      | none => extractDelimitedGo lines (i + 1) (some (i, lang)) rest
      | some (cs, lg) =>
        let content := pyStrip (joinLines ((lines.drop (cs + 1)).take (i - (cs + 1))))
        (if content = [] then []
         else [⟨content, cs + 1, i - 1, "delimiter", ⟨99, 100⟩, some lg⟩]) ++
          extractDelimitedGo lines (i + 1) (some (i, lang)) rest

/-- Embedding of _extract_delimited_blocks(text) on pre-split lines. -/
def extractDelimitedBlocks (lines : List (List Char)) : List CandidateBlock :=
  extractDelimitedGo lines 0 none lines

/-! ## Strategy 2: markdown fences (_extract_markdown_blocks) -/

/-- Loop of _extract_markdown_blocks.  A stripped line starting with three
backticks toggles the in-block state; the optional language tag is the
maximal word-character run following the opening fence; a closing fence
emits the collected lines when there are at least min_block_lines of
them, at confidence 0.95. -/
def extractMarkdownGo (minB : Nat) (i : Nat)
    (state : Option (Nat × Option (List Char))) (blockLines : List (List Char)) :
    List (List Char) → List CandidateBlock
  | [] => []
  | l :: rest =>
    let stripped := pyStrip l
    let isFence := (lc "```").isPrefixOf stripped
    match state with
    | none =>
      if isFence then
        let hint := (stripped.drop 3).takeWhile isWordChar
        extractMarkdownGo minB (i + 1)
          (some (i, if hint = [] then none else some hint)) [] rest
      else extractMarkdownGo minB (i + 1) none [] rest
    | some (bs, hint) =>
      if isFence then
        (if blockLines.length ≥ minB then
          [⟨joinLines blockLines, bs + 1, i - 1, "markdown", ⟨95, 100⟩, hint⟩]
         else []) ++ extractMarkdownGo minB (i + 1) none [] rest
      else extractMarkdownGo minB (i + 1) (some (bs, hint)) (blockLines ++ [l]) rest

/-- Embedding of _extract_markdown_blocks(text) on pre-split lines. -/
def extractMarkdownBlocks (minB : Nat) (lines : List (List Char)) :
    List CandidateBlock :=
  extractMarkdownGo minB 0 none [] lines

/-! ## Strategy 3: indentation (_extract_indented_blocks) -/

/-- Loop of _extract_indented_blocks.  A line already claimed in
marked_lines flushes the current run at confidence 0.75 (length check
only); a non-indented line flushes it at confidence 0.85 subject to the
technical-density threshold 0.15; indented non-blank unmarked lines
extend the run.  A run still open at the end of the lines is dropped, as
in the source.  The bs argument is the start index of the current run and
is meaningful only when cur is non-empty. -/
def extractIndentedGo (minB : Nat) (marked : List Nat) (i : Nat)
    (cur : List (List Char)) (bs : Nat) : List (List Char) → List CandidateBlock
  | [] => []
  | l :: rest =>
    if marked.contains i then
      (if cur ≠ [] ∧ cur.length ≥ minB then
        [⟨joinLines cur, bs, i - 1, "indentation", ⟨75, 100⟩, none⟩] else []) ++
      extractIndentedGo minB marked (i + 1) [] 0 rest
    else
      let indent := (l.takeWhile isPySpace).length
      if pyStrip l ≠ [] ∧ (indent ≥ 4 ∨ l.headD ' ' = '\t') then
        extractIndentedGo minB marked (i + 1) (cur ++ [l])
          (if cur = [] then i else bs) rest
      else
        (if cur ≠ [] ∧ cur.length ≥ minB ∧
            Q.blt ⟨15, 100⟩ (calculateTechnicalDensity (joinLines cur)) then
          [⟨joinLines cur, bs, i - 1, "indentation", ⟨85, 100⟩, none⟩] else []) ++
        extractIndentedGo minB marked (i + 1) [] 0 rest

/-- Embedding of _extract_indented_blocks(text, marked_lines). -/
def extractIndentedBlocks (minB : Nat) (marked : List Nat)
    (lines : List (List Char)) : List CandidateBlock :=
  extractIndentedGo minB marked 0 [] 0 lines

/-! ## Strategy 4: top-level keywords (_extract_toplevel_blocks) -/

/-- START_KEYWORDS of _extract_toplevel_blocks (a Python set; the
duplicate 'alias' entry of the source listing is kept once, membership
being identical). -/
def startKeywords : List (List Char) :=
  [lc "import", lc "from", lc "package", lc "namespace",
   lc "def", lc "class", lc "func", lc "function",
   lc "pub", lc "fn", lc "struct", lc "enum", lc "impl",
   lc "interface", lc "type", lc "const", lc "var", lc "let",
   lc "public", lc "private", lc "protected", lc "void",
   lc "#include", lc "#define", lc "using", lc "typedef",
   lc "if", lc "else", lc "try", lc "catch", lc "finally",
   lc "<?php", lc "require", lc "include", lc "trait", lc "abstract", lc "final",
   lc "module", lc "require_relative", lc "alias",
   lc "fun", lc "val", lc "data", lc "object",
   lc "export", lc "echo", lc "source", lc "#",
   lc "<!DOCTYPE", lc "<html", lc "<head", lc "<body", lc "<div",
   lc "<script", lc "<style",
   lc "@media", lc "@import",
   lc "SELECT", lc "INSERT", lc "UPDATE", lc "DELETE", lc "CREATE",
   lc "DROP", lc "ALTER"]

/-- Embedding of line.strip().split(' ')[0]: the stripped line up to the
first space (empty for a blank line). -/
def firstWord (l : List Char) : List Char := (pyStrip l).takeWhile (· ≠ ' ')

/-- The is_start test of _extract_toplevel_blocks on one line. -/
def isStartLine (l : List Char) : Bool :=
  let fw := firstWord l
  startKeywords.contains fw ||
  (lc "#!").isPrefixOf fw || (lc "<?").isPrefixOf fw ||
  (lc "\x7b").isPrefixOf fw || (lc "[").isPrefixOf fw ||
  (lc "<").isPrefixOf fw ||
  (fw.getLastD ' ' = ':' && fw.length > 2)

/-- Inner expansion loop of _extract_toplevel_blocks: starting after a
block-opening line, consume lines until a marked line, a blank-line gap
of more than two lines, a new unindented START_KEYWORDS line, or the end
of the lines; returns the final (end, j) pair of the Python loop.  The
fuel argument exceeds the iteration count at every call site. -/
def toplevelInner (lines : List (List Char)) (marked : List Nat) :
    Nat → Nat → Nat → Nat → Nat × Nat
  | 0, j, endv, _ => (endv, j)
  | fuel + 1, j, endv, gap =>
    if j ≥ lines.length then (endv, j)
    else if marked.contains j then (endv, j)
    else
      let nl := lines.getD j []
      if pyStrip nl = [] then
        if gap + 1 > 2 then (endv, j)
        else toplevelInner lines marked fuel (j + 1) endv (gap + 1)
      else
        if (match nl with
            | ' ' :: _ => false
            | '\t' :: _ => false
            | _ => true) && startKeywords.contains (firstWord nl) then
          (endv, j)
        else toplevelInner lines marked fuel (j + 1) j 0

/-- Outer loop of _extract_toplevel_blocks: skip marked lines, open a
block on an is_start line, expand it with toplevelInner, emit it when its
stripped content is non-empty (the source's check end - start >= 0 always
holds) at confidence 0.85, then resume at the inner loop's final j. -/
def toplevelOuter (lines : List (List Char)) (marked : List Nat) :
    Nat → Nat → List CandidateBlock
  | 0, _ => []
  | fuel + 1, i =>
    if i ≥ lines.length then []
    else if marked.contains i then toplevelOuter lines marked fuel (i + 1)
    else if isStartLine (lines.getD i []) then
      let p := toplevelInner lines marked (lines.length + 1) (i + 1) i 0
      let content := pyStrip (joinLines ((lines.drop i).take (p.1 + 1 - i)))
      (if content ≠ [] then
        [⟨content, i, p.1, "keyword", ⟨85, 100⟩, none⟩] else []) ++
      toplevelOuter lines marked fuel p.2
    else toplevelOuter lines marked fuel (i + 1)

/-- Embedding of _extract_toplevel_blocks(text, marked_lines). -/
def extractToplevelBlocks (lines : List (List Char)) (marked : List Nat) :
    List CandidateBlock :=
  toplevelOuter lines marked (lines.length + 1) 0

/-! ## Strategy 5: density windows (_extract_density_blocks) -/

/-- Extension loop of _extract_density_blocks: grow end while the next
line exists, is unmarked, and has technical density above 0.12. -/
def densityInner (lines : List (List Char)) (marked : List Nat) :
    Nat → Nat → Nat
  | 0, e => e
  | fuel + 1, e =>
    if e < lines.length ∧ ¬ marked.contains e then
      if Q.blt ⟨12, 100⟩ (calculateTechnicalDensity (lines.getD e [])) then
        densityInner lines marked fuel (e + 1)
      else e
    else e

/-- Outer loop of _extract_density_blocks: slide a five-line window over
unmarked start positions while i < len(lines) - 5; when the window's
density exceeds 0.15 the span is extended by densityInner and emitted
(subject to the minimum length, and to density > 0.30 or structural
complexity at least 3) at confidence min(0.60, density), then scanning
resumes at the extended end. -/
def densityOuter (lines : List (List Char)) (marked : List Nat) (minB : Nat) :
    Nat → Nat → List CandidateBlock
  | 0, _ => []
  | fuel + 1, i =>
    if i < lines.length - 5 then
      if marked.contains i then densityOuter lines marked minB fuel (i + 1)
      else
        let window := joinLines ((lines.drop i).take 5)
        let d := calculateTechnicalDensity window
        if Q.blt ⟨15, 100⟩ d then
          let e := densityInner lines marked (lines.length + 1) (i + 5)
          (if e - i ≥ minB then
            let content := joinLines ((lines.drop i).take (e - i))
            if Q.blt ⟨30, 100⟩ d ∨ calculateBlockComplexity content ≥ 3 then
              [⟨content, i, e - 1, "density", Q.qmin ⟨60, 100⟩ d, none⟩]
            else []
          else []) ++ densityOuter lines marked minB fuel e
        else densityOuter lines marked minB fuel (i + 1)
    else []

/-- Embedding of _extract_density_blocks(text, marked_lines). -/
def extractDensityBlocks (lines : List (List Char)) (marked : List Nat)
    (minB : Nat) : List CandidateBlock :=
  densityOuter lines marked minB (lines.length + 1) 0

/-! ## Deduplication (_deduplicate_blocks) -/

/-- Stable insertion into a sorted list: the new element goes before the
first element it may precede, so that elements equivalent under le keep
their original relative order, as Python's stable sorted() does. -/
def sortIns {α : Type} (le : α → α → Bool) (x : α) : List α → List α
  | [] => [x]
  | y :: ys => if le x y then x :: y :: ys else y :: sortIns le x ys

/-- Stable sort by the Boolean relation le; for a total le this computes
exactly Python's sorted(). -/
def sortBy {α : Type} (le : α → α → Bool) : List α → List α
  | [] => []
  | x :: xs => sortIns le x (sortBy le xs)

/-- Ordering by confidence descending (the key=confidence, reverse=True
sort of _deduplicate_blocks). -/
def confGE (a b : CandidateBlock) : Bool := Q.ble b.confidence a.confidence

/-- Ordering by start line ascending (the final key=start_line sort). -/
def startLE (a b : CandidateBlock) : Bool := a.start_line ≤ b.start_line

/-- Greedy keep loop of _deduplicate_blocks: walk the candidates in
confidence-descending order, keeping each block whose line range meets no
line already used by a kept block. -/
def dedupKeep (used : List Nat) (acc : List CandidateBlock) :
    List CandidateBlock → List CandidateBlock
  | [] => acc.reverse
  | b :: rest =>
    if b.lineList.all (fun n => !used.contains n) then
      dedupKeep (used ++ b.lineList) (b :: acc) rest
    else dedupKeep used acc rest

/-- Embedding of _deduplicate_blocks. -/
def deduplicateBlocks (blocks : List CandidateBlock) : List CandidateBlock :=
  if blocks = [] then []
  else sortBy startLE (dedupKeep [] [] (sortBy confGE blocks))

/-! ## Segmenter.segment -/

/-- Marked-lines update: add a block's line range to the set (modelled as
a list; the source only tests membership). -/
def markRange (m : List Nat) (b : CandidateBlock) : List Nat := m ++ b.lineList

/-- Markdown admission loop of segment: keep a fence block only when none
of its lines is already marked, and mark its lines as soon as it is kept;
returns the kept blocks and the grown marked set. -/
def mdFilterGo (m : List Nat) : List CandidateBlock →
    List CandidateBlock × List Nat
  | [] => ([], m)
  | b :: rest =>
    if b.lineList.all (fun n => !m.contains n) then
      let p := mdFilterGo (m ++ b.lineList) rest
      (b :: p.1, p.2)
    else mdFilterGo m rest

/-- The candidate list built by segment's strategy cascade (source lines
86-115) before deduplication: delimiter blocks, then admitted markdown
blocks, then indentation, top-level keyword and density blocks, each
strategy seeing the lines marked by the previous ones. -/
def segmentCandidates (minB : Nat) (lines : List (List Char)) :
    List CandidateBlock :=
  let delim := extractDelimitedBlocks lines
  let m1 := delim.foldl markRange []
  let mdP := mdFilterGo m1 (extractMarkdownBlocks minB lines)
  let ind := extractIndentedBlocks minB mdP.2 lines
  let m3 := ind.foldl markRange mdP.2
  let kw := extractToplevelBlocks lines m3
  let m4 := kw.foldl markRange m3
  let dens := extractDensityBlocks lines m4 minB
  delim ++ mdP.1 ++ ind ++ kw ++ dens

/-- Python truthiness of the optional language argument: a non-None,
non-empty string. -/
def truthy : Option (List Char) → Bool
  | none => false
  | some s => !s.isEmpty

/-- Embedding of Segmenter.segment(text, language, filename).

When the language argument is truthy, the source first calls
self.ts_manager.get_language_from_extension(language) (segmenter.py line
48) outside any try block; TreeSitterManager defines no such method, so
the call raises AttributeError before any candidate is produced — the
embedding returns that missing attribute name as an error.  This makes
the AST branch (lines 52-68) and the fallback-extractor branch (lines
70-84) unreachable.

Otherwise the five strategies run; when they produce no candidate and the
file has at least min_block_lines lines, the whole-file fallback (lines
119-134) calls self._calculate_density(text), another method the class
does not define (it defines _calculate_technical_density), raising
AttributeError — again returned as an error.  In the remaining cases the
deduplicated candidates are returned. -/
def segment (minB : Nat) (text : List Char) (language : Option (List Char)) :
    Except String (List CandidateBlock) :=
  if truthy language then .error "get_language_from_extension"
  else
    let lines := splitLines text
    let candidates := segmentCandidates minB lines
    if candidates.isEmpty ∧ lines.length ≥ minB then .error "_calculate_density"
    else .ok (deduplicateBlocks candidates)

end Segmenter

/-! ## Regular expressions for the secret scanner (secret_scanner.py) -/

/-- Regular expressions over characters: empty language, empty word,
character class, alternation, concatenation, Kleene star. -/
inductive Regex where
  | emp : Regex
  | eps : Regex
  | cls (p : Char → Bool) : Regex
  | alt (a b : Regex) : Regex
  | cat (a b : Regex) : Regex
  | star (a : Regex) : Regex

/-- Does the language of r contain the empty word? -/
def Regex.nullable : Regex → Bool
  | .emp => false
  | .eps => true
  | .cls _ => false
  | .alt a b => a.nullable || b.nullable
  | .cat a b => a.nullable && b.nullable
  | .star _ => true

/-- Alternation smart constructor (keeps derivatives small). -/
def Regex.altS : Regex → Regex → Regex
  | .emp, b => b
  | a, .emp => a
  | a, b => .alt a b

/-- Concatenation smart constructor (keeps derivatives small). -/
def Regex.catS : Regex → Regex → Regex
  | .emp, _ => .emp
  | .eps, b => b
  | a, b => .cat a b

/-- Brzozowski derivative of r by the character c. -/
def Regex.deriv : Regex → Char → Regex
  | .emp, _ => .emp
  | .eps, _ => .emp
  | .cls p, c => if p c then .eps else .emp
  | .alt a b, c => Regex.altS (a.deriv c) (b.deriv c)
  | .cat a b, c =>
    if a.nullable then Regex.altS (Regex.catS (a.deriv c) b) (b.deriv c)
    else Regex.catS (a.deriv c) b
  | .star a, c => Regex.catS (a.deriv c) (.star a)

/-- Does some prefix (possibly empty) of s belong to the language of r? -/
def Regex.matchesSomePre : Regex → List Char → Bool
  | r, [] => r.nullable
  | r, c :: cs => r.nullable || (r.deriv c).matchesSomePre cs

/-- Embedding of a Boolean re.search(r, s): does some substring of s
belong to the language of r? -/
def regexSearch (r : Regex) : List Char → Bool
  | [] => r.nullable
  | c :: cs => r.matchesSomePre (c :: cs) || regexSearch r cs

/-- Wordness of an optional character (string edges count as non-word). -/
def isWordO : Option Char → Bool
  | none => false
  | some c => isWordChar c

/-- The regex word boundary between two adjacent positions. -/
def wordBoundary (p n : Option Char) : Bool := isWordO p != isWordO n

/-- Does some prefix of s match r with the end of the match falling on a
word boundary?  The argument p is the character just before the current
position. -/
def Regex.matchesSomePreB : Regex → Option Char → List Char → Bool
  | r, p, [] => r.nullable && wordBoundary p none
  | r, p, c :: cs =>
    (r.nullable && wordBoundary p (some c)) ||
      (r.deriv c).matchesSomePreB (some c) cs

/-- Worker for a Boolean re.search of a pattern framed by two word
boundaries. -/
def regexSearchBGo (r : Regex) : Option Char → List Char → Bool
  | p, [] => wordBoundary p none && r.nullable
  | p, c :: cs =>
    (wordBoundary p (some c) && r.matchesSomePreB p (c :: cs)) ||
      regexSearchBGo r (some c) cs

/-- Embedding of a Boolean re.search for a pattern of the shape
backslash-b r backslash-b. -/
def regexSearchB (r : Regex) (s : List Char) : Bool := regexSearchBGo r none s

/-- Single literal character. -/
def rchar (c : Char) : Regex := .cls (· = c)

/-- Single literal character, case-insensitive. -/
def rcharI (c : Char) : Regex := .cls (fun d => d.toLower = c.toLower)

/-- Literal string. -/
def rstr (s : String) : Regex :=
  s.toList.foldr (fun c r => .cat (rchar c) r) .eps

/-- Literal string, case-insensitive. -/
def rstrI (s : String) : Regex :=
  s.toList.foldr (fun c r => .cat (rcharI c) r) .eps

/-- Alternation of a list of regexes. -/
def raltL (rs : List Regex) : Regex := rs.foldr .alt .emp

/-- Optional piece (the ? operator). -/
def ropt (r : Regex) : Regex := .alt .eps r

/-- Exactly n repetitions. -/
def rrep : Nat → Regex → Regex
  | 0, _ => .eps
  | n + 1, r => .cat r (rrep n r)

/-- One or more repetitions (the + operator). -/
def rplus (r : Regex) : Regex := .cat r (.star r)

/-- Between m and n repetitions: m required copies followed by n - m
optional ones (the same language as the counted repetition operator). -/
def rrange (m n : Nat) (r : Regex) : Regex :=
  .cat (rrep m r) (rrep (n - m) (ropt r))

/-! ## SecretScanner (secret_scanner.py) -/

namespace SecretScanner

/-- AWS_ACCESS_KEY pattern body: AKIA followed by 16 upper-case letters
or digits (framed by word boundaries at the call site). -/
def awsAccessKeyR : Regex :=
  .cat (rstr "AKIA") (rrep 16 (.cls fun c => c.isUpper || c.isDigit))

/-- AWS_SECRET_KEY pattern body: 40 characters from letters, digits,
slash, plus. -/
def awsSecretKeyR : Regex :=
  rrep 40 (.cls fun c => c.isAlpha || c.isDigit || c = '/' || c = '+')

/-- GOOGLE_API_KEY pattern body: AIza followed by 35 characters from
letters, digits, backslash, hyphen, underscore. -/
def googleApiKeyR : Regex :=
  .cat (rstr "AIza")
    (rrep 35 (.cls fun c => c.isAlpha || c.isDigit || c = '\\' || c = '-' || c = '_'))

/-- SLACK_TOKEN pattern: xox, one of baprs, a hyphen, then 10 to 48
letters or digits. -/
def slackTokenR : Regex :=
  .cat (rstr "xox")
    (.cat (.cls fun c => c = 'b' || c = 'a' || c = 'p' || c = 'r' || c = 's')
      (.cat (rchar '-') (rrange 10 48 (.cls fun c => c.isAlpha || c.isDigit))))

/-- PRIVATE_KEY pattern: a PEM BEGIN ... PRIVATE KEY header. -/
def privateKeyR : Regex :=
  .cat (rstr "-----BEGIN")
    (.cat (rplus (.cls isPySpace))
      (.cat (rplus (.cls fun c => c.isUpper || isPySpace c))
        (.cat (rplus (.cls isPySpace))
          (.cat (rstr "PRIVATE")
            (.cat (rplus (.cls isPySpace)) (rstr "KEY-----"))))))

/-- GENERIC_PASSWORD pattern (case-insensitive): a credential keyword, a
colon or equals sign with optional spacing, then a quote, at least six
non-quote characters, and a quote. -/
def genericPasswordR : Regex :=
  .cat (raltL [rstrI "password", rstrI "passwd", rstrI "pwd", rstrI "secret",
               rstrI "auth_token", rstrI "api_key", rstrI "bearer"])
    (.cat (.star (.cls isPySpace))
      (.cat (.cls fun c => c = ':' || c = '=')
        (.cat (.star (.cls isPySpace))
          (.cat (.cls fun c => c = '"' || c = '\'')
            (.cat (rrep 6 (.cls fun c => c ≠ '"' && c ≠ '\''))
              (.cat (.star (.cls fun c => c ≠ '"' && c ≠ '\''))
                (.cls fun c => c = '"' || c = '\'')))))))

/-- DB_CONNECTION pattern (case-insensitive): a database scheme keyword,
then ://, then a colon and an at sign further right on the same line (the
dot of the source pattern does not cross newlines). -/
def dbConnectionR : Regex :=
  .cat (raltL [rstrI "mysql", rstrI "postgres", rstrI "mongodb", rstrI "redis"])
    (.cat (.star (.cls (· ≠ '\n')))
      (.cat (rstr "://")
        (.cat (.star (.cls (· ≠ '\n')))
          (.cat (rchar ':')
            (.cat (.star (.cls (· ≠ '\n'))) (rchar '@'))))))

/-- STRIPE_KEY pattern body: sk_live_ followed by 24 letters or digits. -/
def stripeKeyR : Regex :=
  .cat (rstr "sk_live_") (rrep 24 (.cls fun c => c.isAlpha || c.isDigit))

/-- GITHUB_TOKEN pattern body: gh, one of pousr, an underscore, then 36
letters or digits. -/
def githubTokenR : Regex :=
  .cat (rstr "gh")
    (.cat (.cls fun c => c = 'p' || c = 'o' || c = 'u' || c = 's' || c = 'r')
      (.cat (rchar '_') (rrep 36 (.cls fun c => c.isAlpha || c.isDigit))))

/-- The PATTERNS table of SecretScanner, in source order, each paired
with its Boolean re.search; the patterns written with word boundaries use
the boundary-aware search. -/
def patterns : List (String × (List Char → Bool)) :=
  [("AWS_ACCESS_KEY", regexSearchB awsAccessKeyR),
   ("AWS_SECRET_KEY", regexSearchB awsSecretKeyR),
   ("GOOGLE_API_KEY", regexSearchB googleApiKeyR),
   ("SLACK_TOKEN", regexSearch slackTokenR),
   ("PRIVATE_KEY", regexSearch privateKeyR),
   ("GENERIC_PASSWORD", regexSearch genericPasswordR),
   ("DB_CONNECTION", regexSearch dbConnectionR),
   ("STRIPE_KEY", regexSearch stripeKeyR),
   ("GITHUB_TOKEN", regexSearch githubTokenR)]

/-- Embedding of SecretScanner.has_secrets: empty content or content
longer than 100000 characters is never scanned; otherwise true when any
pattern of the table matches. -/
def has_secrets (content : List Char) : Bool :=
  if content.isEmpty || content.length > 100000 then false
  else patterns.any (fun nf => nf.2 content)

/-- Embedding of SecretScanner.get_secret_types: the names of the
matching patterns.  The source collects them in table order and then
passes the list through set(); since the names are pairwise distinct the
set only forgets the order, and the embedding keeps table order. -/
def get_secret_types (content : List Char) : List String :=
  (patterns.filter (fun nf => nf.2 content)).map (fun nf => nf.1)

/-- Embedding of the finding dicts of SecretScanner.scan for the fields
the specification speaks about; the match offsets of the source are not
modelled. -/
structure SecretFinding where
  type : String
  line : Nat
  snippet : List Char
  deriving DecidableEq, Repr

/-- The snippet stored in a finding: line.strip()[:50] + "...". -/
def mkSnippet (l : List Char) : List Char := (pyStrip l).take 50 ++ lc "..."

/-- Line loop of scan: i is the zero-based index of the line at the head
of the remaining list. -/
def scanGo (i : Nat) : List (List Char) → List SecretFinding
  | [] => []
  | l :: rest =>
    (patterns.filter (fun nf => nf.2 l)).map
      (fun nf => ⟨nf.1, i + 1, mkSnippet l⟩) ++ scanGo (i + 1) rest

/-- Embedding of SecretScanner.scan: walk the lines; the source emits one
finding per finditer match of each pattern on each line, the embedding
one finding per (line, pattern) with at least one match — the findings
carry the same type, line number and snippet, the snippet depending only
on the line. -/
def scan (content : List Char) : List SecretFinding :=
  scanGo 0 (splitLines content)

end SecretScanner

/-! ## Lemmas about line ranges -/

theorem mem_rangeList {n s e : Nat} : n ∈ rangeList s e ↔ s ≤ n ∧ n ≤ e := by
  unfold rangeList
  rw [List.mem_range']
  constructor
  · rintro ⟨i, hi, rfl⟩; omega
  · intro h; exact ⟨n - s, by omega, by omega⟩

theorem mem_lineList {n : Nat} {b : CandidateBlock} :
    n ∈ b.lineList ↔ b.start_line ≤ n ∧ n ≤ b.end_line := mem_rangeList

/-- One block's range ends strictly before the other's begins. -/
def Before (a b : CandidateBlock) : Prop := a.end_line < b.start_line

theorem linesDisjoint_of_before {a b : CandidateBlock} (h : Before a b) :
    LinesDisjoint a b := by
  intro n hna hnb
  rw [mem_lineList] at hna hnb
  unfold Before at h
  omega

theorem pairwise_LD_of_before {l : List CandidateBlock}
    (h : List.Pairwise Before l) : List.Pairwise LinesDisjoint l :=
  h.imp linesDisjoint_of_before

theorem allNotContains_iff {ns m : List Nat} :
    (ns.all fun n => !m.contains n) = true ↔ ∀ n ∈ ns, n ∉ m := by
  simp [List.all_eq_true]

/-! ## Lemmas about the stable sort -/

theorem sortIns_perm {α : Type} (le : α → α → Bool) (x : α) (l : List α) :
    (Segmenter.sortIns le x l).Perm (x :: l) := by
  induction l with
  | nil => exact List.Perm.refl _
  | cons y ys ih =>
    unfold Segmenter.sortIns
    by_cases h : le x y = true
    · simp only [h, if_true]
      exact List.Perm.refl _
    · simp only [h, if_false]
      exact (ih.cons y).trans (List.Perm.swap x y ys)

theorem sortBy_perm {α : Type} (le : α → α → Bool) (l : List α) :
    (Segmenter.sortBy le l).Perm l := by
  induction l with
  | nil => exact List.Perm.refl _
  | cons x xs ih => exact (sortIns_perm le x _).trans (ih.cons x)

theorem sortIns_pairwise {α : Type} {le : α → α → Bool} {P : α → Prop}
    (htot : ∀ a b, le a b = true ∨ le b a = true)
    (htrans : ∀ a b c, P a → P b → P c →
      le a b = true → le b c = true → le a c = true)
    {x : α} {l : List α} (hPx : P x) (hPl : ∀ a ∈ l, P a)
    (hl : List.Pairwise (fun a b => le a b = true) l) :
    List.Pairwise (fun a b => le a b = true) (Segmenter.sortIns le x l) := by
  induction l with
  | nil => simp [Segmenter.sortIns]
  | cons y ys ih =>
    rcases List.pairwise_cons.mp hl with ⟨hy, hys⟩
    unfold Segmenter.sortIns
    by_cases h : le x y = true
    · simp only [h, if_true]
      refine List.pairwise_cons.mpr ⟨?_, hl⟩
      intro z hz
      rcases List.mem_cons.mp hz with rfl | hz
      · exact h
      · exact htrans x y z hPx (hPl y (List.mem_cons_self y ys)) (hPl z (List.mem_cons_of_mem y hz)) h (hy z hz)
    · simp only [h, if_false]
      refine List.pairwise_cons.mpr ⟨?_, ?_⟩
      · intro z hz
        have hz' := (sortIns_perm le x ys).mem_iff.mp hz
        rcases List.mem_cons.mp hz' with heq | hz'
        · rw [heq]
          rcases htot x y with h1 | h1
          · exact absurd h1 h
          · exact h1
        · exact hy z hz'
      · exact ih (fun a ha => hPl a (List.mem_cons_of_mem y ha)) hys

theorem sortBy_pairwise {α : Type} {le : α → α → Bool} {P : α → Prop}
    (htot : ∀ a b, le a b = true ∨ le b a = true)
    (htrans : ∀ a b c, P a → P b → P c →
      le a b = true → le b c = true → le a c = true)
    {l : List α} (hPl : ∀ a ∈ l, P a) :
    List.Pairwise (fun a b => le a b = true) (Segmenter.sortBy le l) := by
  induction l with
  | nil => simp [Segmenter.sortBy]
  | cons x xs ih =>
    unfold Segmenter.sortBy
    refine sortIns_pairwise htot htrans (hPl x (List.mem_cons_self x xs)) ?_ ?_
    · intro a ha
      exact hPl a (List.mem_cons_of_mem x ((sortBy_perm le xs).mem_iff.mp ha))
    · exact ih (fun a ha => hPl a (List.mem_cons_of_mem x ha))

/-! ## Lemmas about the greedy keep loop of deduplication -/

theorem dedupKeep_mem_acc :
    ∀ (l : List CandidateBlock) (used : List Nat) (acc : List CandidateBlock)
      (x : CandidateBlock), x ∈ acc → x ∈ Segmenter.dedupKeep used acc l := by
  intro l
  induction l with
  | nil => intro used acc x hx; simpa [Segmenter.dedupKeep] using hx
  | cons b rest ih =>
    intro used acc x hx
    unfold Segmenter.dedupKeep
    by_cases h : (b.lineList.all fun n => !used.contains n) = true
    · simp only [h, if_true]
      exact ih _ _ x (List.mem_cons_of_mem b hx)
    · simp only [h, if_false]
      exact ih _ _ x hx

theorem dedupKeep_sub :
    ∀ (l : List CandidateBlock) (used : List Nat) (acc : List CandidateBlock)
      (x : CandidateBlock), x ∈ Segmenter.dedupKeep used acc l →
      x ∈ acc ∨ x ∈ l := by
  intro l
  induction l with
  | nil =>
    intro used acc x hx
    simp only [Segmenter.dedupKeep, List.mem_reverse] at hx
    exact Or.inl hx
  | cons b rest ih =>
    intro used acc x hx
    unfold Segmenter.dedupKeep at hx
    by_cases h : (b.lineList.all fun n => !used.contains n) = true
    · simp only [h, if_true] at hx
      rcases ih _ _ x hx with hx' | hx'
      · rcases List.mem_cons.mp hx' with rfl | hx''
        · exact Or.inr (List.mem_cons_self _ _)
        · exact Or.inl hx''
      · exact Or.inr (List.mem_cons_of_mem b hx')
    · simp only [h, if_false] at hx
      rcases ih _ _ x hx with hx' | hx'
      · exact Or.inl hx'
      · exact Or.inr (List.mem_cons_of_mem b hx')

theorem dedupKeep_pairwise :
    ∀ (l : List CandidateBlock) (used : List Nat) (acc : List CandidateBlock),
      List.Pairwise LinesDisjoint acc →
      (∀ b ∈ acc, ∀ n ∈ b.lineList, n ∈ used) →
      List.Pairwise LinesDisjoint (Segmenter.dedupKeep used acc l) := by
  intro l
  induction l with
  | nil =>
    intro used acc hacc _
    simp only [Segmenter.dedupKeep]
    rw [List.pairwise_reverse]
    exact hacc.imp (fun h => h.symm)
  | cons b rest ih =>
    intro used acc hacc hcov
    unfold Segmenter.dedupKeep
    by_cases h : (b.lineList.all fun n => !used.contains n) = true
    · simp only [h, if_true]
      refine ih _ _ ?_ ?_
      · refine List.pairwise_cons.mpr ⟨?_, hacc⟩
        intro a ha n hnb hna
        exact (allNotContains_iff.mp h n hnb) (hcov a ha n hna)
      · intro x hx n hn
        rcases List.mem_cons.mp hx with rfl | hx'
        · exact List.mem_append_right used hn
        · exact List.mem_append_left _ (hcov x hx' n hn)
    · simp only [h, if_false]
      exact ih _ _ hacc hcov

theorem dedupKeep_mem_of :
    ∀ (l : List CandidateBlock) (used : List Nat) (acc : List CandidateBlock)
      (a : CandidateBlock), a ∈ l →
      List.Pairwise (fun x y => Q.leP y.confidence x.confidence) l →
      (∀ n ∈ a.lineList, n ∉ used) →
      (∀ b ∈ l, b ≠ a → Q.leP a.confidence b.confidence → LinesDisjoint a b) →
      a ∈ Segmenter.dedupKeep used acc l := by
  intro l
  induction l with
  | nil => intro used acc a ha; exact absurd ha (List.not_mem_nil a)
  | cons b rest ih =>
    intro used acc a ha hsorted hused hdisj
    rcases List.pairwise_cons.mp hsorted with ⟨hb, hrest⟩
    unfold Segmenter.dedupKeep
    by_cases hab : b = a
    · subst hab
      have hcheck : (b.lineList.all fun n => !used.contains n) = true :=
        allNotContains_iff.mpr hused
      simp only [hcheck, if_true]
      exact dedupKeep_mem_acc _ _ _ b (List.mem_cons_self b acc)
    · have ha' : a ∈ rest := by
        rcases List.mem_cons.mp ha with rfl | h'
        · exact absurd rfl hab
        · exact h'
      have hconf : Q.leP a.confidence b.confidence := hb a ha'
      have hd : LinesDisjoint a b := hdisj b (List.mem_cons_self b rest) hab hconf
      have hdisj' : ∀ c ∈ rest, c ≠ a → Q.leP a.confidence c.confidence →
          LinesDisjoint a c :=
        fun c hc => hdisj c (List.mem_cons_of_mem b hc)
      by_cases h : (b.lineList.all fun n => !used.contains n) = true
      · simp only [h, if_true]
        refine ih _ _ a ha' hrest ?_ hdisj'
        intro n hn hmem
        rcases List.mem_append.mp hmem with h1 | h1
        · exact hused n hn h1
        · exact hd n hn h1
      · simp only [h, if_false]
        exact ih _ _ a ha' hrest hused hdisj'

/-! ## Properties of _deduplicate_blocks -/

theorem startLE_total (a b : CandidateBlock) :
    Segmenter.startLE a b = true ∨ Segmenter.startLE b a = true := by
  unfold Segmenter.startLE
  rcases Nat.le_total a.start_line b.start_line with h | h
  · exact Or.inl (by simpa using h)
  · exact Or.inr (by simpa using h)

theorem startLE_trans (a b c : CandidateBlock)
    (h1 : Segmenter.startLE a b = true) (h2 : Segmenter.startLE b c = true) :
    Segmenter.startLE a c = true := by
  unfold Segmenter.startLE at *
  simp only [decide_eq_true_iff] at *
  omega

theorem confGE_total (a b : CandidateBlock) :
    Segmenter.confGE a b = true ∨ Segmenter.confGE b a = true := by
  unfold Segmenter.confGE
  rcases Q.leP_total a.confidence b.confidence with h | h
  · exact Or.inr ((Q.ble_iff _ _).mpr h)
  · exact Or.inl ((Q.ble_iff _ _).mpr h)

theorem dedup_subset {l : List CandidateBlock} {x : CandidateBlock}
    (hx : x ∈ Segmenter.deduplicateBlocks l) : x ∈ l := by
  unfold Segmenter.deduplicateBlocks at hx
  by_cases h : l = []
  · simp [h] at hx
  · simp only [h, if_false] at hx
    have h1 := (sortBy_perm Segmenter.startLE _).mem_iff.mp hx
    rcases dedupKeep_sub _ _ _ x h1 with h2 | h2
    · exact absurd h2 (List.not_mem_nil x)
    · exact (sortBy_perm Segmenter.confGE l).mem_iff.mp h2

theorem dedup_pairwise (l : List CandidateBlock) :
    List.Pairwise LinesDisjoint (Segmenter.deduplicateBlocks l) := by
  unfold Segmenter.deduplicateBlocks
  by_cases h : l = []
  · simp [h]
  · simp only [h, if_false]
    have hk : List.Pairwise LinesDisjoint
        (Segmenter.dedupKeep [] [] (Segmenter.sortBy Segmenter.confGE l)) :=
      dedupKeep_pairwise _ [] [] List.Pairwise.nil (by intro b hb; cases hb)
    exact ((sortBy_perm Segmenter.startLE _).pairwise_iff
      (fun h => h.symm)).mpr hk

theorem dedup_sorted (l : List CandidateBlock) :
    List.Pairwise (fun a b : CandidateBlock => a.start_line ≤ b.start_line)
      (Segmenter.deduplicateBlocks l) := by
  unfold Segmenter.deduplicateBlocks
  by_cases h : l = []
  · simp [h]
  · simp only [h, if_false]
    have hs := @sortBy_pairwise CandidateBlock Segmenter.startLE
      (fun _ => True) startLE_total (fun a b c _ _ _ => startLE_trans a b c)
      (Segmenter.dedupKeep [] [] (Segmenter.sortBy Segmenter.confGE l))
      (fun _ _ => trivial)
    exact hs.imp (fun h => by
      simpa [Segmenter.startLE, decide_eq_true_iff] using h)

theorem dedup_mem_of {l : List CandidateBlock} {a : CandidateBlock}
    (hPos : ∀ x ∈ l, Q.Pos x.confidence) (ha : a ∈ l)
    (hdisj : ∀ b ∈ l, b ≠ a → Q.leP a.confidence b.confidence →
      LinesDisjoint a b) :
    a ∈ Segmenter.deduplicateBlocks l := by
  unfold Segmenter.deduplicateBlocks
  have hne : l ≠ [] := by
    intro h; subst h; exact absurd ha (List.not_mem_nil a)
  simp only [hne, if_false]
  have hperm := sortBy_perm Segmenter.confGE l
  have has : a ∈ Segmenter.sortBy Segmenter.confGE l := hperm.mem_iff.mpr ha
  have hsorted0 : List.Pairwise (fun x y => Segmenter.confGE x y = true)
      (Segmenter.sortBy Segmenter.confGE l) :=
    @sortBy_pairwise CandidateBlock Segmenter.confGE
      (fun x => Q.Pos x.confidence) confGE_total
      (fun x y z hx hy hz h1 h2 => by
        unfold Segmenter.confGE at *
        rw [Q.ble_iff] at *
        exact Q.leP_trans hz hy hx h2 h1)
      l hPos
  have hsorted : List.Pairwise
      (fun x y : CandidateBlock => Q.leP y.confidence x.confidence)
      (Segmenter.sortBy Segmenter.confGE l) :=
    hsorted0.imp (fun h => (Q.ble_iff _ _).mp h)
  have hmem := dedupKeep_mem_of _ [] [] a has hsorted
    (by intro n _ hn; cases hn)
    (fun b hb => hdisj b (hperm.mem_iff.mp hb))
  exact (sortBy_perm Segmenter.startLE _).mem_iff.mpr hmem

/-! ## Unfolding segment on a successful return -/

theorem segment_ok_eq {minB : Nat} {text : List Char}
    {lang : Option (List Char)} {out : List CandidateBlock}
    (h : Segmenter.segment minB text lang = Except.ok out) :
    out = Segmenter.deduplicateBlocks
      (Segmenter.segmentCandidates minB (splitLines text)) := by
  unfold Segmenter.segment at h
  by_cases ht : Segmenter.truthy lang = true
  · simp [ht] at h
  · simp only [Bool.not_eq_true] at ht
    simp only [ht, Bool.false_eq_true, if_false] at h
    by_cases hc : (Segmenter.segmentCandidates minB (splitLines text)).isEmpty
        = true ∧ minB ≤ (splitLines text).length
    · simp [hc] at h
    · simp only [hc, if_false] at h
      exact (Except.ok.injEq _ _).mp h.symm

/-! ## Claim C4: returned blocks are sorted and pairwise disjoint -/

/-- C4: for every input text and hint on which segment returns, the
returned list of CandidateBlocks is sorted by start_line ascending and
every pair of distinct returned blocks has disjoint line ranges, i.e.
each source line is covered by at most one block after deduplication. -/
theorem c4_segment_output_sorted_and_disjoint :
    ∀ (minB : Nat) (text : List Char) (lang : Option (List Char))
      (out : List CandidateBlock),
      Segmenter.segment minB text lang = Except.ok out →
      List.Pairwise (fun a b : CandidateBlock =>
        a.start_line ≤ b.start_line) out ∧
      ∀ (i j : Fin out.length), i ≠ j →
        LinesDisjoint (out.get i) (out.get j) := by
  intro minB text lang out h
  have heq := segment_ok_eq h
  subst heq
  refine ⟨dedup_sorted _, ?_⟩
  have hp := dedup_pairwise (Segmenter.segmentCandidates minB (splitLines text))
  have hg := List.pairwise_iff_get.mp hp
  intro i j hij
  rcases Nat.lt_or_ge i.val j.val with hlt | hge
  · exact hg i j hlt
  · have hji : j < i := by
      rcases Nat.lt_or_ge j.val i.val with h1 | h1
      · exact h1
      · exact absurd (Fin.ext (Nat.le_antisymm h1 hge)) hij
    exact (hg j i hji).symm

set_option maxRecDepth 1000000

/-- Witness for C4 at a concrete input: the two-line Python snippet
returns one keyword block, which is sorted and pairwise disjoint. -/
theorem c4_segment_output_sorted_and_disjoint_witness :
    List.Pairwise (fun a b : CandidateBlock => a.start_line ≤ b.start_line)
      [⟨lc "def foo():\n    return 1", 0, 1, "keyword", ⟨85, 100⟩, none⟩] ∧
    ∀ (i j : Fin ([(⟨lc "def foo():\n    return 1", 0, 1, "keyword",
        ⟨85, 100⟩, none⟩ : CandidateBlock)].length)), i ≠ j →
      LinesDisjoint
        ([(⟨lc "def foo():\n    return 1", 0, 1, "keyword",
          ⟨85, 100⟩, none⟩ : CandidateBlock)].get i)
        ([(⟨lc "def foo():\n    return 1", 0, 1, "keyword",
          ⟨85, 100⟩, none⟩ : CandidateBlock)].get j) :=
  c4_segment_output_sorted_and_disjoint 3 (lc "def foo():\n    return 1") none
    [⟨lc "def foo():\n    return 1", 0, 1, "keyword", ⟨85, 100⟩, none⟩] rfl

/-! ## Claim C1: delegation to the fallback extractor for unsupported hints -/

/-- C1: the claim says that for a language hint outside
TreeSitterManager.SUPPORTED_LANGUAGES, segment delegates entirely to the
fallback extractor (blank-line blocks, confidence 0.6, method
fallback_regex).  The code instead raises AttributeError on segmenter.py
line 48 — self.ts_manager.get_language_from_extension(language) — before
the fallback branch can run, because TreeSitterManager defines no method
get_language_from_extension: evaluating segment on a concrete text with
the unsupported hint "cobol" produces that error, not fallback blocks. -/
theorem c1_unsupported_hint_raises_before_fallback :
    Segmenter.segment 3 (lc "x = 1\ny = 2\n\nz = 3") (some (lc "cobol")) =
      Except.error "get_language_from_extension" := rfl

/-! ## Claim C2: every language hint raises AttributeError -/

/-- Counterexample to C2 as stated: the claim quantifies over every
non-None language argument, but Python's `if language:` treats the empty
string as false, so segment("def foo():\n    return 1", language="")
skips the broken call and returns a block list normally instead of
raising AttributeError. -/
theorem c2_counterexample_empty_string_hint_returns :
    Segmenter.segment 3 (lc "def foo():\n    return 1") (some (lc "")) =
      Except.ok [⟨lc "def foo():\n    return 1", 0, 1, "keyword",
        ⟨85, 100⟩, none⟩] := rfl

/-- C2 (amended): for every text and every non-None, non-empty language
argument, Segmenter.segment raises AttributeError before producing any
candidate, because it calls the undefined
ts_manager.get_language_from_extension outside any try block; the whole
language-aware branch is unreachable. -/
theorem c2_amended_nonempty_hint_raises :
    ∀ (minB : Nat) (text : List Char) (hint : List Char), hint ≠ [] →
      Segmenter.segment minB text (some hint) =
        Except.error "get_language_from_extension" := by
  intro minB text hint h
  cases hint with
  | nil => exact absurd rfl h
  | cons c t => rfl

/-- Witness for the amended C2 at the concrete hint "python" (a language
that even has a grammar: the crash does not depend on grammar support). -/
theorem c2_amended_nonempty_hint_raises_witness :
    Segmenter.segment 3 (lc "x = 1") (some (lc "python")) =
      Except.error "get_language_from_extension" :=
  c2_amended_nonempty_hint_raises 3 (lc "x = 1") (lc "python") (by decide)

/-! ## Claim C3: gating of the whole-file fallback -/

/-- Ten lines of plain English with no technical characters: no strategy
produces a candidate, so segment reaches the whole-file fallback. -/
def c3PlainProse : List Char := lc
  "the quick brown fox jumps\nover the lazy sleeping dog\nwhere many small animals rest\nunder a warm summer sun\nwhile birds sing their songs\nacross the quiet green meadow\nnear an old wooden fence\nbeside the slow moving river\nthrough fields of golden wheat\ntoward distant purple mountains"

/-- C3: the claim (and the spec) say a 10-line plain-English paragraph
yields an empty candidate list, the whole-file fallback being disqualified
by density <= 0.05.  In the code the fallback branch calls
self._calculate_density(text) (segmenter.py line 123), a method the class
does not define (it defines _calculate_technical_density), so reaching
the branch raises AttributeError instead of returning []. -/
theorem c3_whole_file_fallback_raises_attribute_error :
    Segmenter.segment 3 c3PlainProse none =
      Except.error "_calculate_density" := rfl

/-! ## Claim C7: scenario A, a two-line fenced python block -/

/-- The scenario A input: a fenced python block surrounded by prose. -/
def scenarioAText : List Char := lc
  "Intro prose about an example.\n```python\ndef f():\n    return 1\n```\nMore prose after the example."

/-- The block segment actually returns on scenario A with the default
minimum block length 3. -/
def scenarioADefaultBlock : CandidateBlock :=
  ⟨lc "def f():\n    return 1\n```\nMore prose after the example.",
    2, 5, "keyword", ⟨85, 100⟩, none⟩

/-- Counterexample to C7 as stated: with the default min_block_lines = 3
the markdown strategy requires at least three fenced content lines, so
the two-line fence is rejected; the input yields exactly one block, but
it comes from the keyword strategy at confidence 0.85 and swallows the
closing fence and the trailing prose — not the claimed markdown block at
confidence 0.95. -/
theorem c7_counterexample_default_min_rejects_two_line_fence :
    Segmenter.segment 3 scenarioAText none =
      Except.ok [scenarioADefaultBlock] ∧
    scenarioADefaultBlock.detection_method = "keyword" ∧
    scenarioADefaultBlock.confidence = ⟨85, 100⟩ :=
  ⟨rfl, rfl, rfl⟩

/-- C7 (amended): the claimed output — exactly one CandidateBlock with
detection_method "markdown", language_hint "python", confidence 0.95 and
content exactly "def f():\n    return 1" — is produced only when the
Segmenter's minimum block length is at most the two content lines of the
fence, e.g. min_block_lines = 2; the default setting 3 rejects the fence. -/
theorem c7_amended_min2_yields_markdown_block :
    Segmenter.segment 2 scenarioAText none =
      Except.ok [⟨lc "def f():\n    return 1", 2, 3, "markdown",
        ⟨95, 100⟩, some (lc "python")⟩] := rfl

/-! ## Lemmas for the secret scanner claims -/

theorem regexSearch_append_left (r : Regex) (xs ys : List Char)
    (h : regexSearch r ys = true) : regexSearch r (xs ++ ys) = true := by
  induction xs with
  | nil => simpa using h
  | cons x xs ih =>
    show (r.matchesSomePre (x :: (xs ++ ys)) || regexSearch r (xs ++ ys)) = true
    simp [ih]

/-- Substring test: does the needle occur contiguously inside the hay? -/
def hasSub (needle : List Char) : List Char → Bool
  | [] => needle.isEmpty
  | c :: t => needle.isPrefixOf (c :: t) || hasSub needle t

/-! ## Claim C8: the password scenario and the size guard -/

/-- C8: has_secrets on 'password = "supersecret123"' is true and the
generic-password pattern name is among its secret types; and every
content longer than 100000 characters is reported secret-free by
has_secrets unconditionally. -/
theorem c8_password_scenario_and_size_guard :
    SecretScanner.has_secrets (lc "password = \"supersecret123\"") = true ∧
    "GENERIC_PASSWORD" ∈
      SecretScanner.get_secret_types (lc "password = \"supersecret123\"") ∧
    ∀ (content : List Char), content.length > 100000 →
      SecretScanner.has_secrets content = false := by
  refine ⟨rfl, ?_, ?_⟩
  · rw [show SecretScanner.get_secret_types (lc "password = \"supersecret123\"")
      = ["GENERIC_PASSWORD"] from rfl]
    exact List.mem_singleton.mpr rfl
  · intro content h
    unfold SecretScanner.has_secrets
    simp [h]

/-- A content of 100027 characters embedding a generic password. -/
def c8BigContent : List Char :=
  List.replicate 100000 'a' ++ lc "password = \"supersecret123\""

theorem c8BigContent_length : c8BigContent.length = 100027 := by
  unfold c8BigContent
  rw [List.length_append, List.length_replicate]
  rfl

/-- Witness for C8's size-guard clause at a concrete 100027-character
content that does embed a password assignment. -/
theorem c8_password_scenario_and_size_guard_witness :
    SecretScanner.has_secrets c8BigContent = false :=
  c8_password_scenario_and_size_guard.2.2 c8BigContent
    (by rw [c8BigContent_length]; omega)

/-! ## Claim C10: the size guard is absent from get_secret_types -/

/-- C10: for every content longer than 100000 characters that matches
some pattern of the table, has_secrets returns false while
get_secret_types still returns a non-empty list of pattern names, so a
false has_secrets does not imply an empty get_secret_types. -/
theorem c10_size_guard_only_in_has_secrets :
    ∀ (content : List Char), content.length > 100000 →
      (SecretScanner.patterns.any fun nf => nf.2 content) = true →
      SecretScanner.has_secrets content = false ∧
      SecretScanner.get_secret_types content ≠ [] := by
  intro content hlen hmatch
  constructor
  · unfold SecretScanner.has_secrets
    simp [hlen]
  · rcases List.any_eq_true.mp hmatch with ⟨nf, hnf, hm⟩
    unfold SecretScanner.get_secret_types
    intro hcon
    have h1 : nf ∈ SecretScanner.patterns.filter (fun nf => nf.2 content) :=
      List.mem_filter.mpr ⟨hnf, hm⟩
    have h2 : nf.1 ∈ (SecretScanner.patterns.filter
        (fun nf => nf.2 content)).map (fun nf => nf.1) :=
      List.mem_map_of_mem _ h1
    rw [hcon] at h2
    cases h2

/-- A content of 100027 characters embedding a generic password, for the
C10 witness. -/
def c10BigContent : List Char :=
  List.replicate 100000 'b' ++ lc "password = \"supersecret123\""

theorem c10BigContent_length : c10BigContent.length = 100027 := by
  unfold c10BigContent
  rw [List.length_append, List.length_replicate]
  rfl

theorem pattern_any_tail {x : String × (List Char → Bool)}
    {l : List (String × (List Char → Bool))} {c : List Char}
    (h : (l.any fun nf => nf.2 c) = true) :
    ((x :: l).any fun nf => nf.2 c) = true := by
  simp [List.any_cons, h]

theorem pattern_any_head {name : String} {f : List Char → Bool}
    {l : List (String × (List Char → Bool))} {c : List Char} (h : f c = true) :
    (((name, f) :: l).any fun nf => nf.2 c) = true := by
  have hx : (fun nf : String × (List Char → Bool) => nf.2 c) (name, f) = f c := rfl
  simp [List.any_cons, hx, h]

theorem c10BigContent_matches :
    (SecretScanner.patterns.any fun nf => nf.2 c10BigContent) = true := by
  have h2 : regexSearch SecretScanner.genericPasswordR c10BigContent = true := by
    show regexSearch SecretScanner.genericPasswordR
        (List.replicate 100000 'b' ++ lc "password = \"supersecret123\"") = true
    exact regexSearch_append_left _ _ _ rfl
  unfold SecretScanner.patterns
  apply pattern_any_tail
  apply pattern_any_tail
  apply pattern_any_tail
  apply pattern_any_tail
  apply pattern_any_tail
  exact pattern_any_head h2

/-- Witness for C10 at the concrete 100027-character content. -/
theorem c10_size_guard_only_in_has_secrets_witness :
    SecretScanner.has_secrets c10BigContent = false ∧
    SecretScanner.get_secret_types c10BigContent ≠ [] :=
  c10_size_guard_only_in_has_secrets c10BigContent
    (by rw [c10BigContent_length]; omega) c10BigContent_matches

/-! ## Claim C9: scan snippets and secret leakage -/

/-- A one-line content whose generic-password match fits well inside the
50-character snippet truncation. -/
def c9Content : List Char := lc "password = \"secret1\""

/-- Counterexample to C9 as stated: scan on 'password = \"secret1\"'
produces a finding whose snippet is the whole stripped line plus "...",
and the full matched credential assignment — which the third conjunct
certifies matches the GENERIC_PASSWORD pattern, quoted secret value
included — occurs verbatim inside the snippet: truncation to 50
characters only removes secrets that extend past the 50th column. -/
theorem c9_counterexample_snippet_contains_secret :
    SecretScanner.scan c9Content =
      [⟨"GENERIC_PASSWORD", 1, lc "password = \"secret1\"..."⟩] ∧
    hasSub c9Content (lc "password = \"secret1\"...") = true ∧
    regexSearch SecretScanner.genericPasswordR c9Content = true :=
  ⟨rfl, rfl, rfl⟩

/-- C9 (amended): every finding of scan carries as snippet the stripped
source line truncated to its first 50 characters plus "..." — never more
than 53 characters — but a matched secret lying within those first 50
characters still appears in the snippet in full. -/
theorem c9_amended_snippet_is_truncated_line :
    ∀ (content : List Char) (f : SecretScanner.SecretFinding),
      f ∈ SecretScanner.scan content →
      (∃ l ∈ splitLines content, f.snippet = SecretScanner.mkSnippet l) ∧
      f.snippet.length ≤ 53 := by
  have key : ∀ (ls : List (List Char)) (i : Nat)
      (f : SecretScanner.SecretFinding), f ∈ SecretScanner.scanGo i ls →
      ∃ l ∈ ls, f.snippet = SecretScanner.mkSnippet l := by
    intro ls
    induction ls with
    | nil => intro i f hf; cases hf
    | cons l rest ih =>
      intro i f hf
      unfold SecretScanner.scanGo at hf
      rcases List.mem_append.mp hf with h1 | h1
      · rcases List.mem_map.mp h1 with ⟨nf, _, heq⟩
        exact ⟨l, List.mem_cons_self l rest, by rw [← heq]⟩
      · rcases ih (i + 1) f h1 with ⟨l', hl', he⟩
        exact ⟨l', List.mem_cons_of_mem l hl', he⟩
  intro content f hf
  rcases key _ 0 f hf with ⟨l, hl, he⟩
  refine ⟨⟨l, hl, he⟩, ?_⟩
  rw [he]
  unfold SecretScanner.mkSnippet
  rw [List.length_append]
  have h1 := List.length_take_le 50 (pyStrip l)
  have h2 : (lc "...").length = 3 := rfl
  omega

/-- Witness for the amended C9 at the concrete finding produced on
c9Content. -/
theorem c9_amended_snippet_is_truncated_line_witness :
    (∃ l ∈ splitLines c9Content,
      (⟨"GENERIC_PASSWORD", 1, lc "password = \"secret1\"..."⟩ :
        SecretScanner.SecretFinding).snippet = SecretScanner.mkSnippet l) ∧
    (⟨"GENERIC_PASSWORD", 1, lc "password = \"secret1\"..."⟩ :
      SecretScanner.SecretFinding).snippet.length ≤ 53 :=
  c9_amended_snippet_is_truncated_line c9Content
    ⟨"GENERIC_PASSWORD", 1, lc "password = \"secret1\"..."⟩
    (by rw [show SecretScanner.scan c9Content =
        [⟨"GENERIC_PASSWORD", 1, lc "password = \"secret1\"..."⟩] from rfl]
        exact List.mem_singleton.mpr rfl)

/-! ## Per-strategy invariants of the segmenter -/

theorem pyStrip_nil : pyStrip [] = [] := rfl

theorem joinLines_nil : joinLines [] = [] := rfl

theorem take_pos_of_ne_nil {α : Type} {l : List α} {n : Nat}
    (h : l.take n ≠ []) : 1 ≤ n := by
  rcases n with _ | n
  · simp at h
  · omega

theorem lt_length_of_drop_ne_nil {α : Type} {l : List α} {n : Nat}
    (h : l.drop n ≠ []) : n < l.length := by
  by_contra hc
  push_neg at hc
  exact h (List.drop_eq_nil_of_le hc)

theorem strip_join_ne_nil {ls : List (List Char)}
    (h : pyStrip (joinLines ls) ≠ []) : ls ≠ [] := by
  intro he
  subst he
  exact h rfl

/-- Invariant of the _extract_delimited_blocks loop: every produced block
carries method delimiter at confidence 0.99, a well-ordered line range
starting after the pending section marker, and the produced blocks are
pairwise ordered (hence disjoint). -/
theorem extractDelimitedGo_inv (lines : List (List Char)) :
    ∀ (rest : List (List Char)) (i : Nat) (cur : Option (Nat × List Char)),
      (∀ cs lg, cur = some (cs, lg) → cs < i) →
      (∀ b ∈ Segmenter.extractDelimitedGo lines i cur rest,
        b.detection_method = "delimiter" ∧ b.confidence = ⟨99, 100⟩ ∧
        b.start_line ≤ b.end_line ∧
        (match cur with
         | some p => p.1 + 1
         | none => i + 1) ≤ b.start_line) ∧
      List.Pairwise Before (Segmenter.extractDelimitedGo lines i cur rest) := by
  intro rest
  induction rest with
  | nil =>
    intro i cur hcur
    rcases cur with _ | ⟨cs, lg⟩
    · simp [Segmenter.extractDelimitedGo]
    · simp only [Segmenter.extractDelimitedGo]
      by_cases hc : pyStrip (joinLines (lines.drop (cs + 1))) = []
      · simp [hc]
      · simp only [hc, if_false]
        constructor
        · intro b hb
          rcases List.mem_singleton.mp hb with rfl
          have hdrop : lines.drop (cs + 1) ≠ [] := strip_join_ne_nil hc
          have hlt : cs + 1 < lines.length := lt_length_of_drop_ne_nil hdrop
          exact ⟨rfl, rfl, by simp; omega, by simp⟩
        · simp
  | cons l rest ih =>
    intro i cur hcur
    rcases hsm : Segmenter.sectionMatch (pyStrip l) with _ | lang
    · have hrec := ih (i + 1) cur
        (fun cs lg h => Nat.lt_succ_of_lt (hcur cs lg h))
      rcases cur with _ | ⟨cs, lg⟩
      · simp only [Segmenter.extractDelimitedGo, hsm]
        refine ⟨?_, hrec.2⟩
        intro b hb
        have hf := hrec.1 b hb
        refine ⟨hf.1, hf.2.1, hf.2.2.1, ?_⟩
        have := hf.2.2.2
        simp only [] at this ⊢
        omega
      · simp only [Segmenter.extractDelimitedGo, hsm]
        exact hrec
    · rcases cur with _ | ⟨cs, lg⟩
      · have hrec := ih (i + 1) (some (i, lang))
          (by rintro cs lg h; cases h; omega)
        simp only [Segmenter.extractDelimitedGo, hsm]
        refine ⟨?_, hrec.2⟩
        intro b hb
        have hf := hrec.1 b hb
        refine ⟨hf.1, hf.2.1, hf.2.2.1, ?_⟩
        have := hf.2.2.2
        simp only [] at this ⊢
        omega
      · have hcs : cs < i := hcur cs lg rfl
        have hrec := ih (i + 1) (some (i, lang))
          (by rintro cs' lg' h; cases h; omega)
        simp only [Segmenter.extractDelimitedGo, hsm]
        by_cases hc : pyStrip (joinLines ((lines.drop (cs + 1)).take (i - (cs + 1)))) = []
        · simp only [hc, if_true, List.nil_append]
          refine ⟨?_, hrec.2⟩
          intro b hb
          have hf := hrec.1 b hb
          refine ⟨hf.1, hf.2.1, hf.2.2.1, ?_⟩
          have := hf.2.2.2
          simp only [] at this ⊢
          omega
        · simp only [hc, if_false, List.singleton_append]
          have htake : 1 ≤ i - (cs + 1) :=
            take_pos_of_ne_nil (strip_join_ne_nil hc)
          constructor
          · intro b hb
            rcases List.mem_cons.mp hb with rfl | hb'
            · exact ⟨rfl, rfl, by simp; omega, by simp⟩
            · have hf := hrec.1 b hb'
              refine ⟨hf.1, hf.2.1, hf.2.2.1, ?_⟩
              have := hf.2.2.2
              simp only [] at this ⊢
              omega
          · refine List.pairwise_cons.mpr ⟨?_, hrec.2⟩
            intro b hb
            have hf := hrec.1 b hb
            have := hf.2.2.2
            show Before _ b
            unfold Before
            simp only [] at this ⊢
            omega

/-- Invariant of the _extract_markdown_blocks loop: every produced block
carries method markdown at confidence 0.95, a well-ordered line range
inside the fenced span, and the produced blocks are pairwise ordered. -/
theorem extractMarkdownGo_inv (minB : Nat) (hminB : 1 ≤ minB) :
    ∀ (rest : List (List Char)) (i : Nat)
      (state : Option (Nat × Option (List Char)))
      (blockLines : List (List Char)),
      (∀ bs hint, state = some (bs, hint) →
        bs < i ∧ blockLines.length = i - bs - 1) →
      (∀ b ∈ Segmenter.extractMarkdownGo minB i state blockLines rest,
        b.detection_method = "markdown" ∧ b.confidence = ⟨95, 100⟩ ∧
        b.start_line ≤ b.end_line ∧
        (match state with
         | some p => p.1 + 1
         | none => i + 1) ≤ b.start_line) ∧
      List.Pairwise Before
        (Segmenter.extractMarkdownGo minB i state blockLines rest) := by
  intro rest
  induction rest with
  | nil =>
    intro i state blockLines _
    simp [Segmenter.extractMarkdownGo]
  | cons l rest ih =>
    intro i state blockLines hstate
    by_cases hf : (lc "```").isPrefixOf (pyStrip l) = true
    · rcases state with _ | ⟨bs, hint⟩
      · have hrec := ih (i + 1)
          (some (i, if ((pyStrip l).drop 3).takeWhile isWordChar = [] then none
            else some (((pyStrip l).drop 3).takeWhile isWordChar)))
          [] (by rintro bs hint h; cases h; exact ⟨by omega, by simp⟩)
        simp only [Segmenter.extractMarkdownGo, hf, if_true]
        refine ⟨?_, hrec.2⟩
        intro b hb
        have hfact := hrec.1 b hb
        refine ⟨hfact.1, hfact.2.1, hfact.2.2.1, ?_⟩
        have := hfact.2.2.2
        simp only [] at this ⊢
        omega
      · rcases hstate bs hint rfl with ⟨hbs, hlen⟩
        have hrec := ih (i + 1) none []
          (by rintro bs hint h; cases h)
        simp only [Segmenter.extractMarkdownGo, hf, if_true]
        by_cases hm : minB ≤ blockLines.length
        · simp only [hm, if_true, List.singleton_append]
          constructor
          · intro b hb
            rcases List.mem_cons.mp hb with rfl | hb'
            · exact ⟨rfl, rfl, by simp; omega, by simp⟩
            · have hfact := hrec.1 b hb'
              refine ⟨hfact.1, hfact.2.1, hfact.2.2.1, ?_⟩
              have := hfact.2.2.2
              simp only [] at this ⊢
              omega
          · refine List.pairwise_cons.mpr ⟨?_, hrec.2⟩
            intro b hb
            have := (hrec.1 b hb).2.2.2
            show Before _ b
            unfold Before
            simp only [] at this ⊢
            omega
        · simp only [hm, if_false, List.nil_append]
          refine ⟨?_, hrec.2⟩
          intro b hb
          have hfact := hrec.1 b hb
          refine ⟨hfact.1, hfact.2.1, hfact.2.2.1, ?_⟩
          have := hfact.2.2.2
          simp only [] at this ⊢
          omega
    · rcases state with _ | ⟨bs, hint⟩
      · have hrec := ih (i + 1) none [] (by rintro bs hint h; cases h)
        simp only [Segmenter.extractMarkdownGo, hf, if_false]
        refine ⟨?_, hrec.2⟩
        intro b hb
        have hfact := hrec.1 b hb
        refine ⟨hfact.1, hfact.2.1, hfact.2.2.1, ?_⟩
        have := hfact.2.2.2
        simp only [] at this ⊢
        omega
      · rcases hstate bs hint rfl with ⟨hbs, hlen⟩
        have hrec := ih (i + 1) (some (bs, hint)) (blockLines ++ [l])
          (by rintro bs' hint' h
              cases h
              constructor
              · omega
              · rw [List.length_append, hlen]
                simp
                omega)
        simp only [Segmenter.extractMarkdownGo, hf, if_false]
        refine ⟨?_, hrec.2⟩
        intro b hb
        have hfact := hrec.1 b hb
        refine ⟨hfact.1, hfact.2.1, hfact.2.2.1, ?_⟩
        have := hfact.2.2.2
        simp only [] at this ⊢
        omega

/-- Invariant of the _extract_indented_blocks loop: every produced block
carries method indentation at confidence 0.75 or 0.85, a well-ordered
line range lying entirely outside marked_lines, and the produced blocks
are pairwise ordered. -/
theorem extractIndentedGo_inv (minB : Nat)
    (marked : List Nat) :
    ∀ (rest : List (List Char)) (i : Nat) (cur : List (List Char)) (bs : Nat),
      (cur ≠ [] → bs < i ∧ cur.length = i - bs ∧
        ∀ j, bs ≤ j → j < i → marked.contains j = false) →
      (∀ b ∈ Segmenter.extractIndentedGo minB marked i cur bs rest,
        b.detection_method = "indentation" ∧
        (b.confidence = ⟨75, 100⟩ ∨ b.confidence = ⟨85, 100⟩) ∧
        b.start_line ≤ b.end_line ∧
        (∀ n ∈ b.lineList, marked.contains n = false) ∧
        (if cur = [] then i else bs) ≤ b.start_line) ∧
      List.Pairwise Before (Segmenter.extractIndentedGo minB marked i cur bs rest) := by
  intro rest
  induction rest with
  | nil =>
    intro i cur bs _
    simp [Segmenter.extractIndentedGo]
  | cons l rest ih =>
    intro i cur bs hcur
    by_cases hm : marked.contains i = true
    · -- line i is marked: flush at 0.75, reset
      have hrec := ih (i + 1) [] 0 (by intro h; exact absurd rfl h)
      simp only [Segmenter.extractIndentedGo, hm, if_true]
      by_cases hemit : cur ≠ [] ∧ cur.length ≥ minB
      · rw [if_pos hemit]
        rcases hcur hemit.1 with ⟨hbs, hlen, hunm⟩
        simp only [List.singleton_append]
        constructor
        · intro b hb
          rcases List.mem_cons.mp hb with rfl | hb'
          · refine ⟨rfl, Or.inl rfl, by simp; omega, ?_, ?_⟩
            · intro n hn
              rw [mem_lineList] at hn
              simp only [] at hn
              exact hunm n hn.1 (by omega)
            · simp [if_neg hemit.1]
          · have hfact := hrec.1 b hb'
            refine ⟨hfact.1, hfact.2.1, hfact.2.2.1, hfact.2.2.2.1, ?_⟩
            have := hfact.2.2.2.2
            simp at this
            simp only [if_neg hemit.1]
            omega
        · refine List.pairwise_cons.mpr ⟨?_, hrec.2⟩
          intro b hb
          have := (hrec.1 b hb).2.2.2.2
          simp at this
          show Before _ b
          unfold Before
          simp only []
          omega
      · rw [if_neg hemit]
        simp only [List.nil_append]
        refine ⟨?_, hrec.2⟩
        intro b hb
        have hfact := hrec.1 b hb
        refine ⟨hfact.1, hfact.2.1, hfact.2.2.1, hfact.2.2.2.1, ?_⟩
        have := hfact.2.2.2.2
        simp at this
        by_cases hc : cur = []
        · rw [if_pos hc]; omega
        · rw [if_neg hc]
          rcases hcur hc with ⟨h1, _, _⟩
          omega
    · -- line i is unmarked
      have hm' : marked.contains i = false := by simpa using hm
      simp only [Segmenter.extractIndentedGo, hm, if_false]
      by_cases hind : pyStrip l ≠ [] ∧
          ((l.takeWhile isPySpace).length ≥ 4 ∨ l.headD ' ' = '\t')
      · -- indented line: extend the run
        rw [if_pos hind]
        have hrec := ih (i + 1) (cur ++ [l]) (if cur = [] then i else bs)
          (by intro _
              by_cases hc : cur = []
              · subst hc
                refine ⟨by simp, by simp, ?_⟩
                · intro j h1 h2
                  simp at h1
                  have : j = i := by omega
                  subst this
                  exact hm'
              · rcases hcur hc with ⟨h1, h2, h3⟩
                rw [if_neg hc]
                refine ⟨by omega, by simp [h2]; omega, ?_⟩
                intro j hj1 hj2
                rcases Nat.lt_or_ge j i with hj | hj
                · exact h3 j hj1 hj
                · have : j = i := by omega
                  subst this
                  exact hm')
        refine ⟨?_, hrec.2⟩
        intro b hb
        have hfact := hrec.1 b hb
        refine ⟨hfact.1, hfact.2.1, hfact.2.2.1, hfact.2.2.2.1, ?_⟩
        have hlow := hfact.2.2.2.2
        have hne : cur ++ [l] ≠ [] := by simp
        rw [if_neg hne] at hlow
        by_cases hc : cur = []
        · rw [if_pos hc]
          rw [if_pos hc] at hlow
          omega
        · rw [if_neg hc]
          rw [if_neg hc] at hlow
          omega
      · -- non-indented line: flush at 0.85 with the density test
        rw [if_neg hind]
        have hrec := ih (i + 1) [] 0 (by intro h; exact absurd rfl h)
        by_cases hemit : cur ≠ [] ∧ cur.length ≥ minB ∧
            Q.blt ⟨15, 100⟩ (Segmenter.calculateTechnicalDensity (joinLines cur)) = true
        · rw [if_pos hemit]
          rcases hcur hemit.1 with ⟨hbs, hlen, hunm⟩
          simp only [List.singleton_append]
          constructor
          · intro b hb
            rcases List.mem_cons.mp hb with rfl | hb'
            · refine ⟨rfl, Or.inr rfl, by simp; omega, ?_, ?_⟩
              · intro n hn
                rw [mem_lineList] at hn
                simp only [] at hn
                exact hunm n hn.1 (by omega)
              · simp [if_neg hemit.1]
            · have hfact := hrec.1 b hb'
              refine ⟨hfact.1, hfact.2.1, hfact.2.2.1, hfact.2.2.2.1, ?_⟩
              have := hfact.2.2.2.2
              simp at this
              simp only [if_neg hemit.1]
              omega
          · refine List.pairwise_cons.mpr ⟨?_, hrec.2⟩
            intro b hb
            have := (hrec.1 b hb).2.2.2.2
            simp at this
            show Before _ b
            unfold Before
            simp only []
            omega
        · rw [if_neg hemit]
          simp only [List.nil_append]
          refine ⟨?_, hrec.2⟩
          intro b hb
          have hfact := hrec.1 b hb
          refine ⟨hfact.1, hfact.2.1, hfact.2.2.1, hfact.2.2.2.1, ?_⟩
          have := hfact.2.2.2.2
          simp at this
          by_cases hc : cur = []
          · rw [if_pos hc]; omega
          · rw [if_neg hc]
            rcases hcur hc with ⟨h1, _, _⟩
            omega

/-- Invariant of the inner expansion loop of _extract_toplevel_blocks:
the final end never precedes the initial one, falls strictly before the
final j, the final j never precedes the initial one, and every line index
the loop ran past is unmarked. -/
theorem toplevelInner_inv (lines : List (List Char)) (marked : List Nat) :
    ∀ (fuel j endv gap : Nat), endv < j →
      endv ≤ (Segmenter.toplevelInner lines marked fuel j endv gap).1 ∧
      (Segmenter.toplevelInner lines marked fuel j endv gap).1 <
        (Segmenter.toplevelInner lines marked fuel j endv gap).2 ∧
      j ≤ (Segmenter.toplevelInner lines marked fuel j endv gap).2 ∧
      (∀ k, j ≤ k →
        k < (Segmenter.toplevelInner lines marked fuel j endv gap).2 →
        marked.contains k = false) := by
  intro fuel
  induction fuel with
  | zero =>
    intro j endv gap hlt
    simp only [Segmenter.toplevelInner]
    exact ⟨le_refl _, hlt, le_refl _, by intro k h1 h2; omega⟩
  | succ fuel ih =>
    intro j endv gap hlt
    simp only [Segmenter.toplevelInner]
    by_cases h1 : j ≥ lines.length
    · rw [if_pos h1]
      exact ⟨le_refl _, hlt, le_refl _, by intro k hk1 hk2; omega⟩
    · rw [if_neg h1]
      by_cases h2 : marked.contains j = true
      · rw [if_pos h2]
        exact ⟨le_refl _, hlt, le_refl _, by intro k hk1 hk2; omega⟩
      · have h2' : marked.contains j = false := by simpa using h2
        rw [if_neg h2]
        by_cases h3 : pyStrip (lines.getD j []) = []
        · rw [if_pos h3]
          by_cases h4 : gap + 1 > 2
          · rw [if_pos h4]
            exact ⟨le_refl _, hlt, le_refl _, by intro k hk1 hk2; omega⟩
          · rw [if_neg h4]
            have hrec := ih (j + 1) endv (gap + 1) (by omega)
            refine ⟨hrec.1, hrec.2.1, by omega, ?_⟩
            intro k hk1 hk2
            rcases Nat.lt_or_ge k (j + 1) with hk | hk
            · have : k = j := by omega
              subst this
              exact h2'
            · exact hrec.2.2.2 k hk hk2
        · rw [if_neg h3]
          by_cases h4 : ((match lines.getD j [] with
              | ' ' :: _ => false
              | '\t' :: _ => false
              | _ => true) &&
              Segmenter.startKeywords.contains
                (Segmenter.firstWord (lines.getD j []))) = true
          · rw [if_pos h4]
            exact ⟨le_refl _, hlt, le_refl _, by intro k hk1 hk2; omega⟩
          · rw [if_neg h4]
            have hrec := ih (j + 1) j 0 (by omega)
            refine ⟨by omega, hrec.2.1, by omega, ?_⟩
            intro k hk1 hk2
            rcases Nat.lt_or_ge k (j + 1) with hk | hk
            · have : k = j := by omega
              subst this
              exact h2'
            · exact hrec.2.2.2 k hk hk2

/-- Invariant of the outer loop of _extract_toplevel_blocks: every
produced block carries method keyword at confidence 0.85, a well-ordered
range of unmarked lines starting no earlier than the current index, and
the produced blocks are pairwise ordered. -/
theorem toplevelOuter_inv (lines : List (List Char)) (marked : List Nat) :
    ∀ (fuel i : Nat),
      (∀ b ∈ Segmenter.toplevelOuter lines marked fuel i,
        b.detection_method = "keyword" ∧ b.confidence = ⟨85, 100⟩ ∧
        b.start_line ≤ b.end_line ∧
        (∀ n ∈ b.lineList, marked.contains n = false) ∧
        i ≤ b.start_line) ∧
      List.Pairwise Before (Segmenter.toplevelOuter lines marked fuel i) := by
  intro fuel
  induction fuel with
  | zero =>
    intro i
    simp [Segmenter.toplevelOuter]
  | succ fuel ih =>
    intro i
    simp only [Segmenter.toplevelOuter]
    by_cases h1 : i ≥ lines.length
    · rw [if_pos h1]
      simp
    · rw [if_neg h1]
      by_cases h2 : marked.contains i = true
      · rw [if_pos h2]
        have hrec := ih (i + 1)
        refine ⟨?_, hrec.2⟩
        intro b hb
        have hfact := hrec.1 b hb
        exact ⟨hfact.1, hfact.2.1, hfact.2.2.1, hfact.2.2.2.1, by
          have := hfact.2.2.2.2; omega⟩
      · have h2' : marked.contains i = false := by simpa using h2
        rw [if_neg h2]
        by_cases h3 : Segmenter.isStartLine (lines.getD i []) = true
        · rw [if_pos h3]
          have hinner := toplevelInner_inv lines marked
            (lines.length + 1) (i + 1) i 0 (by omega)
          have hrec := ih (Segmenter.toplevelInner lines marked
            (lines.length + 1) (i + 1) i 0).2
          by_cases hc : pyStrip (joinLines ((lines.drop i).take
              ((Segmenter.toplevelInner lines marked
                (lines.length + 1) (i + 1) i 0).1 + 1 - i))) ≠ []
          · rw [if_pos hc]
            simp only [List.singleton_append]
            constructor
            · intro b hb
              rcases List.mem_cons.mp hb with rfl | hb'
              · refine ⟨rfl, rfl, by simp; exact hinner.1, ?_, by simp⟩
                intro n hn
                rw [mem_lineList] at hn
                simp only [] at hn
                rcases Nat.lt_or_ge n (i + 1) with hni | hni
                · have : n = i := by omega
                  subst this
                  exact h2'
                · refine hinner.2.2.2 n hni ?_
                  have := hinner.2.1
                  omega
              · have hfact := hrec.1 b hb'
                refine ⟨hfact.1, hfact.2.1, hfact.2.2.1, hfact.2.2.2.1, ?_⟩
                have h5 := hfact.2.2.2.2
                have h6 := hinner.2.2.1
                omega
            · refine List.pairwise_cons.mpr ⟨?_, hrec.2⟩
              intro b hb
              have h5 := (hrec.1 b hb).2.2.2.2
              show Before _ b
              unfold Before
              simp only []
              have h6 := hinner.2.1
              omega
          · rw [if_neg hc]
            simp only [List.nil_append]
            refine ⟨?_, hrec.2⟩
            intro b hb
            have hfact := hrec.1 b hb
            refine ⟨hfact.1, hfact.2.1, hfact.2.2.1, hfact.2.2.2.1, ?_⟩
            have h5 := hfact.2.2.2.2
            have h6 := hinner.2.2.1
            omega
        · rw [if_neg h3]
          have hrec := ih (i + 1)
          refine ⟨?_, hrec.2⟩
          intro b hb
          have hfact := hrec.1 b hb
          exact ⟨hfact.1, hfact.2.1, hfact.2.2.1, hfact.2.2.2.1, by
            have := hfact.2.2.2.2; omega⟩

/-- The extension loop of _extract_density_blocks never moves its end
backwards. -/
theorem densityInner_ge (lines : List (List Char)) (marked : List Nat) :
    ∀ (fuel e : Nat), e ≤ Segmenter.densityInner lines marked fuel e := by
  intro fuel
  induction fuel with
  | zero => intro e; simp [Segmenter.densityInner]
  | succ fuel ih =>
    intro e
    simp only [Segmenter.densityInner]
    by_cases h1 : e < lines.length ∧ ¬ marked.contains e = true
    · rw [if_pos h1]
      by_cases h2 : Q.blt ⟨12, 100⟩
          (Segmenter.calculateTechnicalDensity (lines.getD e [])) = true
      · rw [if_pos h2]
        exact le_trans (by omega) (ih (e + 1))
      · rw [if_neg h2]
    · rw [if_neg h1]

/-- Invariant of the outer loop of _extract_density_blocks: every
produced block carries method density at a well-formed confidence of at
most 0.60, a well-ordered range starting no earlier than the current
index, and the produced blocks are pairwise ordered. -/
theorem densityOuter_inv (lines : List (List Char)) (marked : List Nat)
    (minB : Nat) :
    ∀ (fuel i : Nat),
      (∀ b ∈ Segmenter.densityOuter lines marked minB fuel i,
        b.detection_method = "density" ∧
        Q.leP b.confidence ⟨60, 100⟩ ∧ Q.Pos b.confidence ∧
        b.start_line ≤ b.end_line ∧
        i ≤ b.start_line) ∧
      List.Pairwise Before (Segmenter.densityOuter lines marked minB fuel i) := by
  intro fuel
  induction fuel with
  | zero =>
    intro i
    simp [Segmenter.densityOuter]
  | succ fuel ih =>
    intro i
    simp only [Segmenter.densityOuter]
    by_cases h1 : i < lines.length - 5
    · rw [if_pos h1]
      by_cases h2 : marked.contains i = true
      · rw [if_pos h2]
        have hrec := ih (i + 1)
        refine ⟨?_, hrec.2⟩
        intro b hb
        have hfact := hrec.1 b hb
        exact ⟨hfact.1, hfact.2.1, hfact.2.2.1, hfact.2.2.2.1, by
          have := hfact.2.2.2.2; omega⟩
      · rw [if_neg h2]
        by_cases h3 : Q.blt ⟨15, 100⟩ (Segmenter.calculateTechnicalDensity
            (joinLines ((lines.drop i).take 5))) = true
        · rw [if_pos h3]
          have he : i + 5 ≤ Segmenter.densityInner lines marked
              (lines.length + 1) (i + 5) :=
            densityInner_ge lines marked (lines.length + 1) (i + 5)
          have hrec := ih (Segmenter.densityInner lines marked
            (lines.length + 1) (i + 5))
          by_cases h4 : Segmenter.densityInner lines marked
              (lines.length + 1) (i + 5) - i ≥ minB
          · rw [if_pos h4]
            by_cases h5 : Q.blt ⟨30, 100⟩ (Segmenter.calculateTechnicalDensity
                  (joinLines ((lines.drop i).take 5))) = true ∨
                Segmenter.calculateBlockComplexity
                  (joinLines ((lines.drop i).take
                    (Segmenter.densityInner lines marked
                      (lines.length + 1) (i + 5) - i))) ≥ 3
            · rw [if_pos h5]
              simp only [List.singleton_append]
              constructor
              · intro b hb
                rcases List.mem_cons.mp hb with rfl | hb'
                · refine ⟨rfl, Q.qmin_leP_left _ _,
                    Q.qmin_pos (by norm_num [Q.Pos])
                      (Segmenter.calculateTechnicalDensity_pos _),
                    by simp; omega, by simp⟩
                · have hfact := hrec.1 b hb'
                  refine ⟨hfact.1, hfact.2.1, hfact.2.2.1, hfact.2.2.2.1, ?_⟩
                  have := hfact.2.2.2.2
                  omega
              · refine List.pairwise_cons.mpr ⟨?_, hrec.2⟩
                intro b hb
                have h6 := (hrec.1 b hb).2.2.2.2
                show Before _ b
                unfold Before
                simp only []
                omega
            · rw [if_neg h5]
              simp only [List.nil_append]
              refine ⟨?_, hrec.2⟩
              intro b hb
              have hfact := hrec.1 b hb
              refine ⟨hfact.1, hfact.2.1, hfact.2.2.1, hfact.2.2.2.1, by
                have := hfact.2.2.2.2; omega⟩
          · rw [if_neg h4]
            simp only [List.nil_append]
            refine ⟨?_, hrec.2⟩
            intro b hb
            have hfact := hrec.1 b hb
            refine ⟨hfact.1, hfact.2.1, hfact.2.2.1, hfact.2.2.2.1, by
              have := hfact.2.2.2.2; omega⟩
        · rw [if_neg h3]
          have hrec := ih (i + 1)
          refine ⟨?_, hrec.2⟩
          intro b hb
          have hfact := hrec.1 b hb
          exact ⟨hfact.1, hfact.2.1, hfact.2.2.1, hfact.2.2.2.1, by
            have := hfact.2.2.2.2; omega⟩
    · rw [if_neg h1]
      simp

/-- Lines already marked stay marked after folding more blocks in. -/
theorem foldl_markRange_sub (bs : List CandidateBlock) :
    ∀ (m : List Nat) (n : Nat), n ∈ m →
      n ∈ bs.foldl Segmenter.markRange m := by
  induction bs with
  | nil => intro m n h; exact h
  | cons b rest ih =>
    intro m n h
    exact ih _ n (List.mem_append_left _ h)

/-- Every line of every folded block is marked afterwards. -/
theorem foldl_markRange_mem (bs : List CandidateBlock) :
    ∀ (m : List Nat) (b : CandidateBlock), b ∈ bs → ∀ n ∈ b.lineList,
      n ∈ bs.foldl Segmenter.markRange m := by
  induction bs with
  | nil => intro m b h; cases h
  | cons x rest ih =>
    intro m b hb n hn
    rcases List.mem_cons.mp hb with rfl | hb'
    · exact foldl_markRange_sub rest _ n (List.mem_append_right _ hn)
    · exact ih _ b hb' n hn

/-- Invariant of the markdown admission loop of segment: kept blocks come
from the input, the marked set only grows, every kept block's lines were
unmarked at admission and are marked afterwards, and kept blocks are
pairwise disjoint. -/
theorem mdFilterGo_inv :
    ∀ (l : List CandidateBlock) (m : List Nat),
      (∀ x ∈ (Segmenter.mdFilterGo m l).1, x ∈ l) ∧
      (∀ n ∈ m, n ∈ (Segmenter.mdFilterGo m l).2) ∧
      (∀ k ∈ (Segmenter.mdFilterGo m l).1,
        (∀ n ∈ k.lineList, n ∉ m) ∧
        (∀ n ∈ k.lineList, n ∈ (Segmenter.mdFilterGo m l).2)) ∧
      List.Pairwise LinesDisjoint (Segmenter.mdFilterGo m l).1 := by
  intro l
  induction l with
  | nil =>
    intro m
    simp [Segmenter.mdFilterGo]
  | cons b rest ih =>
    intro m
    by_cases h : (b.lineList.all fun n => !m.contains n) = true
    · have hnotin := allNotContains_iff.mp h
      have hrec := ih (m ++ b.lineList)
      simp only [Segmenter.mdFilterGo, h, if_true]
      refine ⟨?_, ?_, ?_, ?_⟩
      · intro x hx
        rcases List.mem_cons.mp hx with rfl | hx'
        · exact List.mem_cons_self _ _
        · exact List.mem_cons_of_mem _ (hrec.1 x hx')
      · intro n hn
        exact hrec.2.1 n (List.mem_append_left _ hn)
      · intro k hk
        rcases List.mem_cons.mp hk with rfl | hk'
        · exact ⟨hnotin, fun n hn =>
            hrec.2.1 n (List.mem_append_right _ hn)⟩
        · rcases hrec.2.2.1 k hk' with ⟨h1, h2⟩
          exact ⟨fun n hn hm => h1 n hn (List.mem_append_left _ hm), h2⟩
      · refine List.pairwise_cons.mpr ⟨?_, hrec.2.2.2⟩
        intro k hk n hnb hnk
        exact (hrec.2.2.1 k hk).1 n hnk (List.mem_append_right _ hnb)
    · have hrec := ih m
      simp only [Segmenter.mdFilterGo, h, if_false]
      exact ⟨fun x hx => List.mem_cons_of_mem _ (hrec.1 x hx),
        hrec.2.1, hrec.2.2.1, hrec.2.2.2⟩

theorem LD_symmetric : Symmetric LinesDisjoint := fun _ _ h => h.symm

theorem contains_false_iff {m : List Nat} {n : Nat} :
    m.contains n = false ↔ n ∉ m := by
  simp

/-- Assembly of the per-strategy invariants: in the candidate cascade
delim ++ mdK ++ ind ++ kw ++ dens produced by segment, every block has a
well-ordered range and a well-formed confidence, and splits into the
density class (confidence at most 0.60, pairwise disjoint among
themselves) and the non-density class (confidence at least 0.75, pairwise
disjoint among themselves thanks to the marked-lines discipline). -/
theorem assembled_classified
    (delim mdK ind kw dens : List CandidateBlock)
    (m1 m2 m3 : List Nat)
    (hd1 : ∀ x ∈ delim, x.confidence = ⟨99, 100⟩ ∧ x.start_line ≤ x.end_line)
    (hd2 : List.Pairwise LinesDisjoint delim)
    (hd3 : ∀ x ∈ delim, ∀ n ∈ x.lineList, n ∈ m1)
    (hk1 : ∀ x ∈ mdK, x.confidence = ⟨95, 100⟩ ∧ x.start_line ≤ x.end_line)
    (hk2 : List.Pairwise LinesDisjoint mdK)
    (hk3 : ∀ x ∈ mdK, (∀ n ∈ x.lineList, n ∉ m1) ∧ (∀ n ∈ x.lineList, n ∈ m2))
    (hm12 : ∀ n ∈ m1, n ∈ m2)
    (hi1 : ∀ x ∈ ind, (x.confidence = ⟨75, 100⟩ ∨ x.confidence = ⟨85, 100⟩) ∧
      x.start_line ≤ x.end_line)
    (hi2 : List.Pairwise LinesDisjoint ind)
    (hi3 : ∀ x ∈ ind, ∀ n ∈ x.lineList, n ∉ m2)
    (hi4 : ∀ x ∈ ind, ∀ n ∈ x.lineList, n ∈ m3)
    (hm23 : ∀ n ∈ m2, n ∈ m3)
    (hw1 : ∀ x ∈ kw, x.confidence = ⟨85, 100⟩ ∧ x.start_line ≤ x.end_line)
    (hw2 : List.Pairwise LinesDisjoint kw)
    (hw3 : ∀ x ∈ kw, ∀ n ∈ x.lineList, n ∉ m3)
    (hn1 : ∀ x ∈ dens, Q.leP x.confidence ⟨60, 100⟩ ∧ Q.Pos x.confidence ∧
      x.start_line ≤ x.end_line)
    (hn2 : List.Pairwise LinesDisjoint dens) :
    ∀ a ∈ delim ++ mdK ++ ind ++ kw ++ dens,
      a.start_line ≤ a.end_line ∧ Q.Pos a.confidence ∧
      ((Q.leP a.confidence ⟨60, 100⟩ ∧
        ∀ b ∈ delim ++ mdK ++ ind ++ kw ++ dens, b ≠ a →
          Q.leP b.confidence ⟨60, 100⟩ → LinesDisjoint a b) ∨
       (Q.leP ⟨75, 100⟩ a.confidence ∧
        ∀ b ∈ delim ++ mdK ++ ind ++ kw ++ dens, b ≠ a →
          Q.leP ⟨75, 100⟩ b.confidence → LinesDisjoint a b)) := by
  -- cross-strategy disjointness via the marked-lines discipline
  have hDM : ∀ x ∈ delim, ∀ y ∈ mdK, LinesDisjoint x y := by
    intro x hx y hy n hnx hny
    exact (hk3 y hy).1 n hny (hd3 x hx n hnx)
  have hDI : ∀ x ∈ delim, ∀ y ∈ ind, LinesDisjoint x y := by
    intro x hx y hy n hnx hny
    exact hi3 y hy n hny (hm12 n (hd3 x hx n hnx))
  have hMI : ∀ x ∈ mdK, ∀ y ∈ ind, LinesDisjoint x y := by
    intro x hx y hy n hnx hny
    exact hi3 y hy n hny ((hk3 x hx).2 n hnx)
  have hDW : ∀ x ∈ delim, ∀ y ∈ kw, LinesDisjoint x y := by
    intro x hx y hy n hnx hny
    exact hw3 y hy n hny (hm23 n (hm12 n (hd3 x hx n hnx)))
  have hMW : ∀ x ∈ mdK, ∀ y ∈ kw, LinesDisjoint x y := by
    intro x hx y hy n hnx hny
    exact hw3 y hy n hny (hm23 n ((hk3 x hx).2 n hnx))
  have hIW : ∀ x ∈ ind, ∀ y ∈ kw, LinesDisjoint x y := by
    intro x hx y hy n hnx hny
    exact hw3 y hy n hny (hi4 x hx n hnx)
  -- non-density membership
  have hNon : ∀ x y : CandidateBlock,
      (x ∈ delim ∨ x ∈ mdK ∨ x ∈ ind ∨ x ∈ kw) →
      (y ∈ delim ∨ y ∈ mdK ∨ y ∈ ind ∨ y ∈ kw) →
      x ≠ y → LinesDisjoint x y := by
    intro x y hx hy hne
    rcases hx with hx | hx | hx | hx <;> rcases hy with hy | hy | hy | hy
    · exact hd2.forall LD_symmetric hx hy hne
    · exact hDM x hx y hy
    · exact hDI x hx y hy
    · exact hDW x hx y hy
    · exact (hDM y hy x hx).symm
    · exact hk2.forall LD_symmetric hx hy hne
    · exact hMI x hx y hy
    · exact hMW x hx y hy
    · exact (hDI y hy x hx).symm
    · exact (hMI y hy x hx).symm
    · exact hi2.forall LD_symmetric hx hy hne
    · exact hIW x hx y hy
    · exact (hDW y hy x hx).symm
    · exact (hMW y hy x hx).symm
    · exact (hIW y hy x hx).symm
    · exact hw2.forall LD_symmetric hx hy hne
  have hNonConf : ∀ x : CandidateBlock,
      (x ∈ delim ∨ x ∈ mdK ∨ x ∈ ind ∨ x ∈ kw) →
      Q.leP ⟨75, 100⟩ x.confidence ∧ Q.Pos x.confidence ∧
        x.start_line ≤ x.end_line := by
    intro x hx
    rcases hx with hx | hx | hx | hx
    · rcases hd1 x hx with ⟨hc, hse⟩
      rw [hc]
      exact ⟨by unfold Q.leP; decide, by unfold Q.Pos; decide, hse⟩
    · rcases hk1 x hx with ⟨hc, hse⟩
      rw [hc]
      exact ⟨by unfold Q.leP; decide, by unfold Q.Pos; decide, hse⟩
    · rcases hi1 x hx with ⟨hc, hse⟩
      rcases hc with hc | hc <;> rw [hc] <;> exact ⟨by unfold Q.leP; decide, by unfold Q.Pos; decide, hse⟩
    · rcases hw1 x hx with ⟨hc, hse⟩
      rw [hc]
      exact ⟨by unfold Q.leP; decide, by unfold Q.Pos; decide, hse⟩
  have hcontra : ∀ {c : Q}, Q.Pos c → Q.leP ⟨75, 100⟩ c →
      Q.leP c ⟨60, 100⟩ → False := by
    intro c hp h1 h2
    have h3 : Q.leP ⟨75, 100⟩ ⟨60, 100⟩ :=
      Q.leP_trans (by unfold Q.Pos; decide) hp (by unfold Q.Pos; decide) h1 h2
    exact absurd h3 (by unfold Q.leP; decide)
  -- membership case analysis for the whole cascade
  have hsplit : ∀ x : CandidateBlock, x ∈ delim ++ mdK ++ ind ++ kw ++ dens →
      (x ∈ delim ∨ x ∈ mdK ∨ x ∈ ind ∨ x ∈ kw) ∨ x ∈ dens := by
    intro x hx
    rcases List.mem_append.mp hx with h | h
    · rcases List.mem_append.mp h with h | h
      · rcases List.mem_append.mp h with h | h
        · rcases List.mem_append.mp h with h | h
          · exact Or.inl (Or.inl h)
          · exact Or.inl (Or.inr (Or.inl h))
        · exact Or.inl (Or.inr (Or.inr (Or.inl h)))
      · exact Or.inl (Or.inr (Or.inr (Or.inr h)))
    · exact Or.inr h
  intro a ha
  rcases hsplit a ha with hN | hD
  · rcases hNonConf a hN with ⟨h75, hpos, hse⟩
    refine ⟨hse, hpos, Or.inr ⟨h75, ?_⟩⟩
    intro b hb hne hb75
    rcases hsplit b hb with hbN | hbD
    · exact hNon a b hN hbN (Ne.symm hne)
    · rcases hn1 b hbD with ⟨hb60, hbpos, _⟩
      exact (hcontra hbpos hb75 hb60).elim
  · rcases hn1 a hD with ⟨h60, hpos, hse⟩
    refine ⟨hse, hpos, Or.inl ⟨h60, ?_⟩⟩
    intro b hb hne hb60
    rcases hsplit b hb with hbN | hbD
    · rcases hNonConf b hbN with ⟨hb75, hbpos, _⟩
      exact (hcontra hbpos hb75 hb60).elim
    · exact hn2.forall LD_symmetric hD hbD (Ne.symm hne)

/-- Classification of the candidates entering deduplication in segment:
every candidate has a well-ordered range and well-formed confidence, and
is either a density block (confidence at most 0.60) disjoint from every
other density block, or a non-density block (confidence at least 0.75)
disjoint from every other non-density block. -/
theorem segmentCandidates_classified (minB : Nat) (hminB : 1 ≤ minB)
    (lines : List (List Char)) :
    ∀ a ∈ Segmenter.segmentCandidates minB lines,
      a.start_line ≤ a.end_line ∧ Q.Pos a.confidence ∧
      ((Q.leP a.confidence ⟨60, 100⟩ ∧
        ∀ b ∈ Segmenter.segmentCandidates minB lines, b ≠ a →
          Q.leP b.confidence ⟨60, 100⟩ → LinesDisjoint a b) ∨
       (Q.leP ⟨75, 100⟩ a.confidence ∧
        ∀ b ∈ Segmenter.segmentCandidates minB lines, b ≠ a →
          Q.leP ⟨75, 100⟩ b.confidence → LinesDisjoint a b)) := by
  have hDelim := extractDelimitedGo_inv lines lines 0 none
    (by rintro cs lg h; cases h)
  have hMdRaw := extractMarkdownGo_inv minB hminB lines 0 none []
    (by rintro bs hint h; cases h)
  have hFil := mdFilterGo_inv (Segmenter.extractMarkdownBlocks minB lines)
    ((Segmenter.extractDelimitedBlocks lines).foldl Segmenter.markRange [])
  have hInd := extractIndentedGo_inv minB ((Segmenter.mdFilterGo ((Segmenter.extractDelimitedBlocks lines).foldl Segmenter.markRange []) (Segmenter.extractMarkdownBlocks minB lines)).2) lines 0 [] 0
    (fun h => absurd rfl h)
  have hKw := toplevelOuter_inv lines ((Segmenter.extractIndentedBlocks minB ((Segmenter.mdFilterGo ((Segmenter.extractDelimitedBlocks lines).foldl Segmenter.markRange []) (Segmenter.extractMarkdownBlocks minB lines)).2) lines).foldl Segmenter.markRange ((Segmenter.mdFilterGo ((Segmenter.extractDelimitedBlocks lines).foldl Segmenter.markRange []) (Segmenter.extractMarkdownBlocks minB lines)).2)) (lines.length + 1) 0
  have hDens := densityOuter_inv lines ((Segmenter.extractToplevelBlocks lines ((Segmenter.extractIndentedBlocks minB ((Segmenter.mdFilterGo ((Segmenter.extractDelimitedBlocks lines).foldl Segmenter.markRange []) (Segmenter.extractMarkdownBlocks minB lines)).2) lines).foldl Segmenter.markRange ((Segmenter.mdFilterGo ((Segmenter.extractDelimitedBlocks lines).foldl Segmenter.markRange []) (Segmenter.extractMarkdownBlocks minB lines)).2))).foldl Segmenter.markRange ((Segmenter.extractIndentedBlocks minB ((Segmenter.mdFilterGo ((Segmenter.extractDelimitedBlocks lines).foldl Segmenter.markRange []) (Segmenter.extractMarkdownBlocks minB lines)).2) lines).foldl Segmenter.markRange ((Segmenter.mdFilterGo ((Segmenter.extractDelimitedBlocks lines).foldl Segmenter.markRange []) (Segmenter.extractMarkdownBlocks minB lines)).2))) minB (lines.length + 1) 0
  exact assembled_classified
    (Segmenter.extractDelimitedBlocks lines)
    (Segmenter.mdFilterGo ((Segmenter.extractDelimitedBlocks lines).foldl Segmenter.markRange []) (Segmenter.extractMarkdownBlocks minB lines)).1
    (Segmenter.extractIndentedBlocks minB ((Segmenter.mdFilterGo ((Segmenter.extractDelimitedBlocks lines).foldl Segmenter.markRange []) (Segmenter.extractMarkdownBlocks minB lines)).2) lines)
    (Segmenter.extractToplevelBlocks lines ((Segmenter.extractIndentedBlocks minB ((Segmenter.mdFilterGo ((Segmenter.extractDelimitedBlocks lines).foldl Segmenter.markRange []) (Segmenter.extractMarkdownBlocks minB lines)).2) lines).foldl Segmenter.markRange ((Segmenter.mdFilterGo ((Segmenter.extractDelimitedBlocks lines).foldl Segmenter.markRange []) (Segmenter.extractMarkdownBlocks minB lines)).2)))
    (Segmenter.extractDensityBlocks lines ((Segmenter.extractToplevelBlocks lines ((Segmenter.extractIndentedBlocks minB ((Segmenter.mdFilterGo ((Segmenter.extractDelimitedBlocks lines).foldl Segmenter.markRange []) (Segmenter.extractMarkdownBlocks minB lines)).2) lines).foldl Segmenter.markRange ((Segmenter.mdFilterGo ((Segmenter.extractDelimitedBlocks lines).foldl Segmenter.markRange []) (Segmenter.extractMarkdownBlocks minB lines)).2))).foldl Segmenter.markRange ((Segmenter.extractIndentedBlocks minB ((Segmenter.mdFilterGo ((Segmenter.extractDelimitedBlocks lines).foldl Segmenter.markRange []) (Segmenter.extractMarkdownBlocks minB lines)).2) lines).foldl Segmenter.markRange ((Segmenter.mdFilterGo ((Segmenter.extractDelimitedBlocks lines).foldl Segmenter.markRange []) (Segmenter.extractMarkdownBlocks minB lines)).2))) minB)
    ((Segmenter.extractDelimitedBlocks lines).foldl Segmenter.markRange []) ((Segmenter.mdFilterGo ((Segmenter.extractDelimitedBlocks lines).foldl Segmenter.markRange []) (Segmenter.extractMarkdownBlocks minB lines)).2) ((Segmenter.extractIndentedBlocks minB ((Segmenter.mdFilterGo ((Segmenter.extractDelimitedBlocks lines).foldl Segmenter.markRange []) (Segmenter.extractMarkdownBlocks minB lines)).2) lines).foldl Segmenter.markRange ((Segmenter.mdFilterGo ((Segmenter.extractDelimitedBlocks lines).foldl Segmenter.markRange []) (Segmenter.extractMarkdownBlocks minB lines)).2))
    (fun x hx => ⟨(hDelim.1 x hx).2.1, (hDelim.1 x hx).2.2.1⟩)
    (pairwise_LD_of_before hDelim.2)
    (fun x hx n hn => foldl_markRange_mem _ [] x hx n hn)
    (fun x hx => ⟨(hMdRaw.1 x (hFil.1 x hx)).2.1,
      (hMdRaw.1 x (hFil.1 x hx)).2.2.1⟩)
    hFil.2.2.2
    (fun x hx => hFil.2.2.1 x hx)
    hFil.2.1
    (fun x hx => ⟨(hInd.1 x hx).2.1, (hInd.1 x hx).2.2.1⟩)
    (pairwise_LD_of_before hInd.2)
    (fun x hx n hn => contains_false_iff.mp ((hInd.1 x hx).2.2.2.1 n hn))
    (fun x hx n hn => foldl_markRange_mem _ _ x hx n hn)
    (fun n hn => foldl_markRange_sub _ _ n hn)
    (fun x hx => ⟨(hKw.1 x hx).2.1, (hKw.1 x hx).2.2.1⟩)
    (pairwise_LD_of_before hKw.2)
    (fun x hx n hn => contains_false_iff.mp ((hKw.1 x hx).2.2.2.1 n hn))
    (fun x hx => ⟨(hDens.1 x hx).2.1, (hDens.1 x hx).2.2.1,
      (hDens.1 x hx).2.2.2.1⟩)
    (pairwise_LD_of_before hDens.2)

theorem Q.ltP_leP_trans {a b c : Q} (ha : Q.Pos a) (hb : Q.Pos b) (hc : Q.Pos c)
    (h1 : Q.ltP a b) (h2 : Q.leP b c) : Q.ltP a c := by
  unfold Q.leP Q.ltP Q.Pos at *
  have e1 := mul_lt_mul_of_pos_right h1 hc
  have e2 := mul_le_mul_of_nonneg_right h2 (le_of_lt ha)
  have : a.num * c.den * b.den < c.num * a.den * b.den := by nlinarith
  exact lt_of_mul_lt_mul_right this (le_of_lt hb)

/-! ## Claim C5: line numbering of returned blocks -/

/-- Counterexample to C5 as stated: on the two-line Python snippet the
keyword strategy emits the block with its zero-based line indices, so the
single returned block has start_line = 0 — the claimed 1-indexing (no
returned block ever has start_line = 0) is violated. -/
theorem c5_counterexample_keyword_block_start_zero :
    Segmenter.segment 3 (lc "def foo():\n    return 1") none =
      Except.ok [⟨lc "def foo():\n    return 1", 0, 1, "keyword",
        ⟨85, 100⟩, none⟩] ∧
    (⟨lc "def foo():\n    return 1", 0, 1, "keyword", ⟨85, 100⟩, none⟩ :
      CandidateBlock).start_line = 0 :=
  ⟨rfl, rfl⟩

/-- C5 (amended): every CandidateBlock returned by segment has
start_line ≤ end_line, but the strategy-emitted blocks carry zero-based
line indices, so start_line = 0 occurs for a block beginning on the first
source line; the claimed 1-indexing does not hold. -/
theorem c5_amended_start_le_end :
    ∀ (text : List Char) (lang : Option (List Char))
      (out : List CandidateBlock),
      Segmenter.segment 3 text lang = Except.ok out →
      ∀ b ∈ out, b.start_line ≤ b.end_line := by
  intro text lang out h b hb
  have heq := segment_ok_eq h
  subst heq
  exact (segmentCandidates_classified 3 (by omega) (splitLines text) b
    (dedup_subset hb)).1

/-- Witness for the amended C5 at the concrete two-line input. -/
theorem c5_amended_start_le_end_witness :
    (⟨lc "def foo():\n    return 1", 0, 1, "keyword", ⟨85, 100⟩, none⟩ :
      CandidateBlock).start_line ≤
    (⟨lc "def foo():\n    return 1", 0, 1, "keyword", ⟨85, 100⟩, none⟩ :
      CandidateBlock).end_line :=
  c5_amended_start_le_end (lc "def foo():\n    return 1") none
    [⟨lc "def foo():\n    return 1", 0, 1, "keyword", ⟨85, 100⟩, none⟩] rfl
    ⟨lc "def foo():\n    return 1", 0, 1, "keyword", ⟨85, 100⟩, none⟩
    (List.mem_singleton.mpr rfl)

/-! ## Claim C6: deduplication keeps the higher-confidence block -/

/-- The strategy priority order named by the specification: delimiter
before markdown before keyword before indentation before density. -/
def strategyRank (m : String) : Nat :=
  if m = "delimiter" then 0
  else if m = "markdown" then 1
  else if m = "keyword" then 2
  else if m = "indentation" then 3
  else if m = "density" then 4
  else 5

/-- C6: for every pair of distinct overlapping candidates entering
deduplication in a successful segment call, the strictly
higher-confidence block is kept; and on equal confidence the block of the
earlier strategy in the order delimiter, markdown, keyword, indentation,
density is kept (equal-confidence overlaps in fact never arise: the
proof shows any overlapping pair joins a density block, whose confidence
is at most 0.60, with a non-density block, whose confidence is at least
0.75). -/
theorem c6_dedup_keeps_higher_confidence :
    ∀ (text : List Char) (lang : Option (List Char))
      (out : List CandidateBlock) (a b : CandidateBlock),
      Segmenter.segment 3 text lang = Except.ok out →
      a ∈ Segmenter.segmentCandidates 3 (splitLines text) →
      b ∈ Segmenter.segmentCandidates 3 (splitLines text) →
      a ≠ b → BlocksOverlap a b →
      (Q.ltP b.confidence a.confidence → a ∈ out) ∧
      (a.confidence = b.confidence →
        strategyRank a.detection_method ≤ strategyRank b.detection_method →
        a ∈ out) := by
  intro text lang out a b h ha hb hne hov
  have heq := segment_ok_eq h
  subst heq
  have hca := segmentCandidates_classified 3 (by omega) (splitLines text) a ha
  have hcb := segmentCandidates_classified 3 (by omega) (splitLines text) b hb
  have hPosA := hca.2.1
  have hPosB := hcb.2.1
  have hPos75 : Q.Pos ⟨75, 100⟩ := by unfold Q.Pos; decide
  have hPos60 : Q.Pos ⟨60, 100⟩ := by unfold Q.Pos; decide
  have hNot7560 : ¬ Q.leP ⟨75, 100⟩ ⟨60, 100⟩ := by unfold Q.leP; decide
  constructor
  · intro hlt
    rcases hca.2.2 with ⟨ha60, hadisj⟩ | ⟨ha75, hadisj⟩
    · rcases hcb.2.2 with ⟨hb60, hbdisj⟩ | ⟨hb75, hbdisj⟩
      · exact absurd hov
          ((not_overlap_iff a b).mpr (hadisj b hb (Ne.symm hne) hb60))
      · have h1 : Q.ltP ⟨75, 100⟩ a.confidence :=
          Q.leP_ltP_trans hPos75 hPosB hPosA hb75 hlt
        have h2 : Q.ltP ⟨75, 100⟩ ⟨60, 100⟩ :=
          Q.ltP_leP_trans hPos75 hPosA hPos60 h1 ha60
        exact absurd h2 (by unfold Q.ltP; decide)
    · apply dedup_mem_of
      · intro x hx
        exact (segmentCandidates_classified 3 (by omega)
          (splitLines text) x hx).2.1
      · exact ha
      · intro c hc hne' hle
        have hcc := segmentCandidates_classified 3 (by omega)
          (splitLines text) c hc
        rcases hcc.2.2 with ⟨hc60, _⟩ | ⟨hc75, _⟩
        · have h1 : Q.leP ⟨75, 100⟩ c.confidence :=
            Q.leP_trans hPos75 hPosA hcc.2.1 ha75 hle
          have h2 : Q.leP ⟨75, 100⟩ ⟨60, 100⟩ :=
            Q.leP_trans hPos75 hcc.2.1 hPos60 h1 hc60
          exact absurd h2 hNot7560
        · exact hadisj c hc hne' hc75
  · intro heqc _
    exfalso
    rcases hca.2.2 with ⟨ha60, hadisj⟩ | ⟨ha75, hadisj⟩ <;>
      rcases hcb.2.2 with ⟨hb60, hbdisj⟩ | ⟨hb75, hbdisj⟩
    · exact ((not_overlap_iff a b).mpr
        (hadisj b hb (Ne.symm hne) hb60)) hov
    · have h1 : Q.leP ⟨75, 100⟩ a.confidence := by
        rw [heqc]; exact hb75
      have h2 : Q.leP ⟨75, 100⟩ ⟨60, 100⟩ :=
        Q.leP_trans hPos75 hPosA hPos60 h1 ha60
      exact hNot7560 h2
    · have h1 : Q.leP a.confidence ⟨60, 100⟩ := by
        rw [heqc]; exact hb60
      have h2 : Q.leP ⟨75, 100⟩ ⟨60, 100⟩ :=
        Q.leP_trans hPos75 hPosA hPos60 ha75 h1
      exact hNot7560 h2
    · exact ((not_overlap_iff a b).mpr
        (hadisj b hb (Ne.symm hne) hb75)) hov

/-- Input for the C6 witness: a fenced code block whose five content
lines are claimed by the markdown strategy, while a density window
starting at the unmarked fence line produces an overlapping
lower-confidence block. -/
def c6Text : List Char := lc
  "some plain prose words here\n```python\ndef f(x):\n    if x > 0: return x\n    return \x7b'a': 1\x7d\nz = [1, 2, 3]\nw = (4, 5)\n```\nmore plain prose words here"

/-- The markdown block produced on c6Text (confidence 0.95). -/
def c6MarkdownBlock : CandidateBlock :=
  ⟨lc "def f(x):\n    if x > 0: return x\n    return \x7b'a': 1\x7d\nz = [1, 2, 3]\nw = (4, 5)",
    2, 6, "markdown", ⟨95, 100⟩, some (lc "python")⟩

/-- The overlapping density block produced on c6Text (confidence
22210/129200, about 0.172). -/
def c6DensityBlock : CandidateBlock :=
  ⟨lc "```python\ndef f(x):\n    if x > 0: return x\n    return \x7b'a': 1\x7d\nz = [1, 2, 3]",
    1, 5, "density", ⟨22210, 129200⟩, none⟩

/-- Witness for C6 at the concrete overlapping pair on c6Text: the
higher-confidence markdown block is kept in the returned list. -/
theorem c6_dedup_keeps_higher_confidence_witness :
    c6MarkdownBlock ∈ [c6MarkdownBlock] :=
  (c6_dedup_keeps_higher_confidence c6Text none [c6MarkdownBlock]
    c6MarkdownBlock c6DensityBlock rfl
    (by rw [show Segmenter.segmentCandidates 3 (splitLines c6Text) =
        [c6MarkdownBlock, c6DensityBlock] from rfl]
        exact List.mem_cons_self _ _)
    (by rw [show Segmenter.segmentCandidates 3 (splitLines c6Text) =
        [c6MarkdownBlock, c6DensityBlock] from rfl]
        exact List.mem_cons_of_mem _ (List.mem_singleton.mpr rfl))
    (by decide) ⟨2, by decide, by decide⟩).1
    (by unfold Q.ltP c6MarkdownBlock c6DensityBlock; decide)
